import Mathlib

/-!
ccwc: a shallow embedding of `cmd/root.go`

The program counts lines, words, characters and bytes of a byte stream with a
`bufio.Scanner` and prints the selected counts.

Conventions of the embedding

* a Go `string` or `[]byte` is a `List Nat` of byte values (each below 256);
* a Go `int` count is a `Nat`: every count is bounded by the input length plus
  one, so 64-bit overflow is out of reach;
* the package-level flag variables, standard output, standard error and the
  log of file opens and closes form an explicit `State` that every operation
  threads through;
* the parts of the Go standard library the program calls (`utf8.DecodeRune`,
  `bufio.ScanLines`, `bufio.ScanWords`, `bufio.Scanner`, `fmt.Printf`) are
  embedded from their Go sources under their Go names.
-/

set_option autoImplicit false

/-! ## Part 1. Definitions -/

/-! ### Errors and readers -/

/-- Go `error` values that can occur in the program.  `EOF` is the sentinel
`io.EOF`, `ErrTooLong` the sentinel `bufio.ErrTooLong`, `ErrNoProgress` stands
for a scanner that stops making progress, `os` is an error raised by the
operating system (with its text) and `wrapf` is an error built by `fmt.Errorf`
with the `%w` verb around an inner error. -/
inductive GoError where
  | EOF : GoError
  | ErrTooLong : GoError
  | ErrNoProgress : GoError
  | os (msg : List Nat) : GoError
  | wrapf (msg : List Nat) (inner : GoError) : GoError
  deriving DecidableEq, Repr

namespace utf8

/-- The rune `utf8.RuneError` (U+FFFD). -/
def RuneError : Nat := 0xFFFD

/-- Encoding of one code point in UTF-8, as `utf8.AppendRune` writes it for a
Unicode scalar value. -/
def encodeRune (c : Nat) : List Nat :=
  if c < 0x80 then [c]
  else if c < 0x800 then [0xC0 + c / 64, 0x80 + c % 64]
  else if c < 0x10000 then [0xE0 + c / 4096, 0x80 + c / 64 % 64, 0x80 + c % 64]
  else [0xF0 + c / 262144, 0x80 + c / 4096 % 64, 0x80 + c / 64 % 64, 0x80 + c % 64]

/-- UTF-8 encoding of a sequence of code points. -/
def encode : List Nat → List Nat
  | [] => []
  | c :: cs => encodeRune c ++ encode cs

/-- A Unicode scalar value: a code point up to U+10FFFF that is not a
surrogate. -/
def isScalar (c : Nat) : Bool :=
  c < 0xD800 || (0xE000 ≤ c && c < 0x110000)

/-- The table `utf8.first`: information about the first byte of an encoding.
`0xF0` marks ASCII, `0xF1` an illegal first byte; otherwise the low three bits
are the size and the high four bits index `acceptRanges`. -/
def first (b : Nat) : Nat :=
  if b < 0x80 then 0xF0
  else if b < 0xC2 then 0xF1
  else if b < 0xE0 then 0x02
  else if b = 0xE0 then 0x13
  else if b < 0xED then 0x03
  else if b = 0xED then 0x23
  else if b < 0xF0 then 0x03
  else if b = 0xF0 then 0x34
  else if b < 0xF4 then 0x04
  else if b = 0xF4 then 0x44
  else 0xF1

/-- The table `utf8.acceptRanges`: the range of valid second bytes. -/
def acceptRanges (i : Nat) : Nat × Nat :=
  match i with
  | 0 => (0x80, 0xBF)
  | 1 => (0xA0, 0xBF)
  | 2 => (0x80, 0x9F)
  | 3 => (0x90, 0xBF)
  | 4 => (0x80, 0x8F)
  | _ => (0, 0)

/-- Go `utf8.DecodeRune`: the first rune of `p` and its width in bytes.  An
empty `p` gives `(RuneError, 0)`, an invalid or truncated encoding gives
`(RuneError, 1)`. -/
def DecodeRune (p : List Nat) : Nat × Nat :=
  match p with
  | [] => (RuneError, 0)
  | p0 :: _ =>
    let x := first p0
    if x ≥ 0xF0 then
      (if x = 0xF1 then RuneError else p0, 1)
    else
      let sz := x % 8
      let accept := acceptRanges (x / 16)
      if p.length < sz then (RuneError, 1)
      else
        let b1 := p.getD 1 0
        if b1 < accept.1 || accept.2 < b1 then (RuneError, 1)
        else if sz ≤ 2 then (((p0 &&& 0x1F) <<< 6) ||| (b1 &&& 0x3F), 2)
        else
          let b2 := p.getD 2 0
          if b2 < 0x80 || 0xBF < b2 then (RuneError, 1)
          else if sz ≤ 3 then
            (((p0 &&& 0x0F) <<< 12) ||| ((b1 &&& 0x3F) <<< 6) ||| (b2 &&& 0x3F), 3)
          else
            let b3 := p.getD 3 0
            if b3 < 0x80 || 0xBF < b3 then (RuneError, 1)
            else
              (((p0 &&& 0x07) <<< 18) ||| ((b1 &&& 0x3F) <<< 12) |||
                ((b2 &&& 0x3F) <<< 6) ||| (b3 &&& 0x3F), 4)

end utf8

/-- Bytes of a string literal of the Go source (Go source text is UTF-8). -/
def bytesOf (s : String) : List Nat :=
  utf8.encode (s.toList.map Char.toNat)

/-- Go method `Error()`: the text of an error. -/
def GoError.Error : GoError → List Nat
  | .EOF => bytesOf "EOF"
  | .ErrTooLong => bytesOf "bufio.Scanner: token too long"
  | .ErrNoProgress => bytesOf "bufio.Scan: too many empty tokens without progressing"
  | .os msg => msg
  | .wrapf msg _ => msg

/-- An `io.Reader` as the scanner sees it: the bytes it delivers, and the error
its `Read` returns once they are exhausted (`io.EOF` at a regular end of
stream, any other error for a stream that fails). -/
structure Reader where
  data : List Nat
  err : GoError
  deriving DecidableEq, Repr

/-- Go `strings.NewReader(s)`: delivers `s` and then `io.EOF`. -/
def strings.NewReader (s : List Nat) : Reader :=
  { data := s, err := GoError.EOF }

/-- Conversion `[]rune(s)` with the given number of decoding steps available:
the runes of `s`, every invalid byte giving one `RuneError`. -/
def toRunesAux : Nat → List Nat → List Nat
  | 0, _ => []
  | _ + 1, [] => []
  | fuel + 1, b :: bs =>
    (utf8.DecodeRune (b :: bs)).1 ::
      toRunesAux fuel ((b :: bs).drop (utf8.DecodeRune (b :: bs)).2)

/-- Go conversion `[]rune(s)`. -/
def toRunes (s : List Nat) : List Nat :=
  toRunesAux s.length s

/-! ### Package bufio -/

/-- Go `bytes.IndexByte`: index of the first `c` in `b`, `none` for Go's -1. -/
def bytes.IndexByte : List Nat → Nat → Option Nat
  | [], _ => none
  | x :: xs, c => if x = c then some 0 else (bytes.IndexByte xs c).map (· + 1)

namespace bufio

/-- Go `bufio.MaxScanTokenSize`. -/
def MaxScanTokenSize : Nat := 64 * 1024

/-- Go `bufio.dropCR`: drops one terminal carriage return. -/
def dropCR (data : List Nat) : List Nat :=
  if data.length > 0 && data.get? (data.length - 1) == some 13 then
    data.take (data.length - 1)
  else data

/-- Go `bufio.ScanLines`, as `(advance, token)`; `none` is the nil token that
asks for more data. -/
def ScanLines (data : List Nat) (atEOF : Bool) : Nat × Option (List Nat) :=
  if atEOF && data.length == 0 then (0, none)
  else
    match bytes.IndexByte data 10 with
    | some i => (i + 1, some (dropCR (data.take i)))
    | none => if atEOF then (data.length, some (dropCR data)) else (0, none)

/-- Go `bufio.isSpace`: Unicode white space. -/
def isSpace (r : Nat) : Bool :=
  if r ≤ 0xFF then
    r == 0x20 || r == 0x09 || r == 0x0A || r == 0x0B || r == 0x0C || r == 0x0D ||
      r == 0x85 || r == 0xA0
  else if 0x2000 ≤ r && r ≤ 0x200A then true
  else
    r == 0x1680 || r == 0x2028 || r == 0x2029 || r == 0x202F || r == 0x205F ||
      r == 0x3000

/-- First loop of `bufio.ScanWords`: skips leading spaces from index `start`
and returns the index of the first rune that is no space. -/
def skipSpaces (data : List Nat) : Nat → Nat → Nat
  | 0, start => start
  | fuel + 1, start =>
    if start < data.length then
      if !isSpace (utf8.DecodeRune (data.drop start)).1 then start
      else skipSpaces data fuel (start + (utf8.DecodeRune (data.drop start)).2)
    else start

/-- Second loop of `bufio.ScanWords`: from index `i`, the index and width of
the first space rune, if any. -/
def findSpace (data : List Nat) : Nat → Nat → Option (Nat × Nat)
  | 0, _ => none
  | fuel + 1, i =>
    if i < data.length then
      if isSpace (utf8.DecodeRune (data.drop i)).1 then
        some (i, (utf8.DecodeRune (data.drop i)).2)
      else findSpace data fuel (i + (utf8.DecodeRune (data.drop i)).2)
    else none

/-- Go `bufio.ScanWords`, as `(advance, token)`. -/
def ScanWords (data : List Nat) (atEOF : Bool) : Nat × Option (List Nat) :=
  match findSpace data data.length (skipSpaces data data.length 0) with
  | some (i, width) =>
    (i + width, some ((data.take i).drop (skipSpaces data data.length 0)))
  | none =>
    if atEOF && data.length > skipSpaces data data.length 0 then
      (data.length, some (data.drop (skipSpaces data data.length 0)))
    else (skipSpaces data data.length 0, none)

/-- What a `bufio.Scanner` yields when `Scan` is called until it returns
false: the tokens, and the final value of the scanner's `err` field.

The scanner's buffer holds at most `maxTokenSize` bytes starting at the
current position `rest` of the stream.  When the rest of the stream is shorter
than that, the scanner reads up to the end, `Read` returns `readErr`, and the
split function is called with `atEOF = true`.  Otherwise the buffer fills up,
the split function is called on the full buffer with `atEOF = false`, and when
it neither yields a token nor advances the scanner gives up with
`ErrTooLong`. -/
def scanAll (split : List Nat → Bool → Nat × Option (List Nat))
    (maxTokenSize : Nat) (readErr : GoError) :
    Nat → List Nat → List (List Nat) × GoError
  | 0, _ => ([], GoError.ErrNoProgress)
  | fuel + 1, rest =>
    if rest.length < maxTokenSize then
      match split rest true with
      | (adv, some tok) =>
        (tok :: (scanAll split maxTokenSize readErr fuel (rest.drop adv)).1,
          (scanAll split maxTokenSize readErr fuel (rest.drop adv)).2)
      | (_, none) => ([], readErr)
    else
      match split (rest.take maxTokenSize) false with
      | (adv, some tok) =>
        (tok :: (scanAll split maxTokenSize readErr fuel (rest.drop adv)).1,
          (scanAll split maxTokenSize readErr fuel (rest.drop adv)).2)
      | (0, none) => ([], GoError.ErrTooLong)
      | (adv + 1, none) => scanAll split maxTokenSize readErr fuel (rest.drop (adv + 1))

/-- A scanner made by `bufio.NewScanner(r)` with the given split function,
run to the end: its tokens and the final value of its `err` field. -/
def Scanner.run (split : List Nat → Bool → Nat × Option (List Nat)) (r : Reader) :
    List (List Nat) × GoError :=
  scanAll split MaxScanTokenSize r.err (r.data.length + 1) r.data

/-- Go `(*Scanner).Err`: the first error met by the scanner that is not
`io.EOF`. -/
def Scanner.Err (sErr : GoError) : Option GoError :=
  if sErr = GoError.EOF then none else some sErr

end bufio

/-! ### Package fmt -/

namespace fmt

/-- Decimal digits of `n` as ASCII bytes, most significant first. -/
def digits : Nat → Nat → List Nat
  | 0, _ => []
  | fuel + 1, n => if n < 10 then [48 + n] else digits fuel (n / 10) ++ [48 + n % 10]

/-- Verb `%d` for a count. -/
def formatInt (n : Nat) : List Nat :=
  digits (n + 1) n

/-- Verb `%8d`: the decimal text padded with spaces on the left up to width 8;
a longer text is written in full. -/
def pad8 (n : Nat) : List Nat :=
  List.replicate (8 - (formatInt n).length) 32 ++ formatInt n

/-- Go `fmt.Errorf(pre + "%s: %w", name, err)` for the two calls of the
program: the text names `name`, and the result wraps `err`. -/
def Errorf (pre : List Nat) (name : List Nat) (err : GoError) : GoError :=
  GoError.wrapf (pre ++ name ++ bytesOf ": " ++ err.Error) err

end fmt

/-! ### The program -/

/-- A file being opened or closed. -/
inductive FileEvent where
  | opened (name : List Nat) : FileEvent
  | closed (name : List Nat) : FileEvent
  deriving DecidableEq, Repr

/-- The package-level variables of `cmd` together with the effects of the
process: what has been written to standard output and standard error, and the
files opened and closed so far. -/
structure State where
  verbose : Bool
  showChars : Bool
  showLines : Bool
  showWords : Bool
  showBytes : Bool
  stdout : List Nat
  stderr : List Nat
  fileLog : List FileEvent
  deriving DecidableEq, Repr

/-- The state when the process starts: no flag set, nothing written, no file
opened. -/
def State.start : State :=
  { verbose := false, showChars := false, showLines := false, showWords := false,
    showBytes := false, stdout := [], stderr := [], fileLog := [] }

/-- The local variables `lines, words, chars, bytes` of `processInput`. -/
structure Counts where
  lines : Nat
  words : Nat
  chars : Nat
  bytes : Nat
  deriving DecidableEq, Repr

/-- Function `splitWords` of `root.go`: the words a `ScanWords` scanner finds
in `s`.  The scanner's error is not looked at. -/
def splitWords (s : List Nat) : List (List Nat) :=
  (bufio.Scanner.run bufio.ScanWords (strings.NewReader s)).1

/-- Body of the scanning loop of `processInput` for one line. -/
def countLine (c : Counts) (line : List Nat) : Counts :=
  { lines := c.lines + 1
    words := c.words + (splitWords line).length
    chars := c.chars + (toRunes line).length
    bytes := c.bytes + (line.length + 1) }

/-- The scanning loop of `processInput`: the counts after the last line. -/
def countInput (r : Reader) : Counts :=
  (bufio.Scanner.run bufio.ScanLines r).1.foldl countLine ⟨0, 0, 0, 0⟩

/-- Value of `scanner.Err()` after the scanning loop of `processInput`. -/
def scanErr (r : Reader) : Option GoError :=
  bufio.Scanner.Err (bufio.Scanner.run bufio.ScanLines r).2

/-- Go `fmt.Printf("%8d ", n)` on standard output. -/
def printCount (n : Nat) (st : State) : State :=
  { st with stdout := st.stdout ++ fmt.pad8 n ++ [32] }

/-- The part of `processInput` after the scan: "Decide what to print", the
four conditional prints and the label. -/
def printReport (c : Counts) (label : List Nat) (st : State) : State :=
  let st0 :=
    if !st.showLines && !st.showWords && !st.showBytes && !st.showChars then
      { st with showLines := true, showWords := true, showBytes := true }
    else st
  let st1 := if st0.showLines then printCount c.lines st0 else st0
  let st2 := if st1.showWords then printCount c.words st1 else st1
  let st3 := if st2.showBytes then printCount c.bytes st2 else st2
  let st4 := if st3.showChars then printCount c.chars st3 else st3
  { st4 with stdout := st4.stdout ++ label ++ [10] }

/-- Function `processInput` of `root.go`: the returned error (`none` for nil)
and the state after the call. -/
def processInput (r : Reader) (label : List Nat) (st : State) : Option GoError × State :=
  match scanErr r with
  | some err => (some (fmt.Errorf (bytesOf "error reading ") label err), st)
  | none => (none, printReport (countInput r) label st)

/-- The surroundings of a run: what standard input delivers, and what
`os.Open` gives for a file name (an error, or the file as a reader). -/
structure Env where
  stdin : Reader
  openFile : List Nat → Except GoError Reader

/-- The loop over the file arguments in `rootCmd.RunE`.  `deferred` is the
stack of deferred `f.Close()` calls, the latest on top.  Returns the error
that ended the loop (if any), the state, and the stack. -/
def runFiles (env : Env) :
    List (List Nat) → List (List Nat) → State → Option GoError × State × List (List Nat)
  | [], deferred, st => (none, st, deferred)
  | file :: files, deferred, st =>
    match env.openFile file with
    | .error err => (some (fmt.Errorf (bytesOf "failed to open ") file err), st, deferred)
    | .ok f =>
      match processInput f file
          { st with fileLog := st.fileLog ++ [FileEvent.opened file] } with
      | (some err, st1) => (some err, st1, file :: deferred)
      | (none, st1) => runFiles env files (file :: deferred) st1

/-- The deferred `f.Close()` calls run when `RunE` returns, last in first
out. -/
def runDeferred : List (List Nat) → State → State
  | [], st => st
  | file :: deferred, st =>
    runDeferred deferred { st with fileLog := st.fileLog ++ [FileEvent.closed file] }

/-- Field `RunE` of `rootCmd`, on the positional arguments `args`. -/
def rootCmd.RunE (env : Env) (args : List (List Nat)) (st : State) : Option GoError × State :=
  if args.length = 0 then processInput env.stdin (bytesOf "stdin") st
  else
    ((runFiles env args [] st).1,
      runDeferred (runFiles env args [] st).2.2 (runFiles env args [] st).2.1)

/-- Function `Execute` of `root.go` once the command line is parsed into the
flag variables of `st` and the positional arguments `args`: the exit code of
the process and the final state.  Only what `root.go` itself writes to
standard error is recorded. -/
def Execute (env : Env) (args : List (List Nat)) (st : State) : Nat × State :=
  match rootCmd.RunE env args st with
  | (some err, st1) =>
    (1, { st1 with
          stderr := st1.stderr ++
            (if st1.verbose then bytesOf "error: " ++ err.Error ++ [10]
             else err.Error ++ [10]) })
  | (none, st1) => (0, st1)

/-! ### Notions of the specification -/

/-- The records of an input as the specification defines them: the pieces
between newline delimiters with only the newline stripped; what follows the
last newline is a record when it is not empty. -/
def records : List Nat → List (List Nat)
  | [] => []
  | b :: bs =>
    if b = 10 then [] :: records bs
    else
      match records bs with
      | [] => [[b]]
      | r :: rs => (b :: r) :: rs

/-- One if the input is not empty and its last byte is no newline, else
zero: the unterminated final fragment. -/
def fragment (input : List Nat) : Nat :=
  if input ≠ [] ∧ input.getLast? ≠ some 10 then 1 else 0

/-- Number of maximal runs of elements that are no white space; `inRun` tells
whether the element before the list belongs to a run. -/
def countRuns (space : Nat → Bool) : Bool → List Nat → Nat
  | _, [] => 0
  | inRun, x :: xs =>
    if space x then countRuns space false xs
    else (if inRun then 0 else 1) + countRuns space true xs

/-- ASCII white space: space, tab, newline, vertical tab, form feed and
carriage return. -/
def isAsciiSpace (b : Nat) : Bool :=
  b == 0x20 || b == 0x09 || b == 0x0A || b == 0x0B || b == 0x0C || b == 0x0D

/-- Decimal representation of a number, as ASCII bytes. -/
def decimal (n : Nat) : List Nat :=
  (Nat.toDigits 10 n).map Char.toNat

/-- The counts of the categories selected by four flags, in the fixed order
lines, words, bytes, chars. -/
def selected (showLines showWords showBytes showChars : Bool) (c : Counts) : List Nat :=
  (if showLines then [c.lines] else []) ++ (if showWords then [c.words] else []) ++
    (if showBytes then [c.bytes] else []) ++ (if showChars then [c.chars] else [])

/-- The counts a report shows in state `st`: those selected by the four flags,
and lines, words, bytes when no flag is set. -/
def shownCounts (st : State) (c : Counts) : List Nat :=
  if !st.showLines && !st.showWords && !st.showBytes && !st.showChars then
    selected true true true false c
  else selected st.showLines st.showWords st.showBytes st.showChars c

/-- A report line as the specification describes it: every count
right-justified with spaces in a field of width 8 and followed by one space,
then the label and a newline. -/
def reportText (fields : List Nat) (label : List Nat) : List Nat :=
  (fields.map (fun n => List.leftpad 8 32 (decimal n) ++ [32])).flatten ++ label ++ [10]

/-- The text a call of `processInput` writes to standard output. -/
def printedBy (r : Reader) (label : List Nat) (st : State) : List Nat :=
  (processInput r label st).2.stdout.drop st.stdout.length

/-- A file argument fails when `os.Open` fails on it or `processInput` returns
an error on the opened file. -/
def fileFails (env : Env) (st : State) (file : List Nat) : Bool :=
  match env.openFile file with
  | .error _ => true
  | .ok f => (processInput f file st).1.isSome

/-- The report of a file argument: what `processInput` prints for the opened
file under its name. -/
def fileReport (env : Env) (st : State) (file : List Nat) : List Nat :=
  match env.openFile file with
  | .error _ => []
  | .ok f => printedBy f file st

/-- The four selection flags of a state, in the order lines, words, bytes,
chars. -/
def flagsOf (st : State) : Bool × Bool × Bool × Bool :=
  (st.showLines, st.showWords, st.showBytes, st.showChars)

/-- Number of occurrences of a carriage return directly followed by a
newline. -/
def countCRLF : List Nat → Nat
  | [] => 0
  | [_] => 0
  | x :: y :: rest => (if x = 13 ∧ y = 10 then 1 else 0) + countCRLF (y :: rest)

/-- One if the last byte is a carriage return, else zero. -/
def endsCR (l : List Nat) : Nat :=
  if l.getLast? = some 13 then 1 else 0

/-- The files that a run over the arguments opens: every argument up to the
first one that fails, that one included when it could be opened. -/
def openedFiles (env : Env) (st : State) : List (List Nat) → List (List Nat)
  | [] => []
  | file :: files =>
    match env.openFile file with
    | .error _ => []
    | .ok f =>
      if (processInput f file st).1.isSome then [file]
      else file :: openedFiles env st files

/-- Number of files open after the events of a log: the opens less the
closes. -/
def openCount (log : List FileEvent) : Nat :=
  log.countP (fun ev => match ev with | .opened _ => true | .closed _ => false) -
    log.countP (fun ev => match ev with | .opened _ => false | .closed _ => true)

/-! ## Part 2. Theorems -/

/-! ### Bytes and records -/

theorem IndexByte_none_iff (l : List Nat) (c : Nat) :
    bytes.IndexByte l c = none ↔ c ∉ l := by
  induction l with
  | nil => simp [bytes.IndexByte]
  | cons x xs ih =>
    by_cases h : x = c
    · simp [bytes.IndexByte, h]
    · have h2 : ¬ c = x := fun e => h e.symm
      simp [bytes.IndexByte, h, h2, ih]

theorem IndexByte_some (l : List Nat) (c i : Nat) (h : bytes.IndexByte l c = some i) :
    l = l.take i ++ c :: l.drop (i + 1) ∧ c ∉ l.take i ∧ i < l.length := by
  induction l generalizing i with
  | nil => simp [bytes.IndexByte] at h
  | cons x xs ih =>
    by_cases hx : x = c
    · simp [bytes.IndexByte, hx] at h
      subst h
      simp [hx]
    · simp only [bytes.IndexByte, hx, if_false, Option.map_eq_some'] at h
      obtain ⟨j, hj, rfl⟩ := h
      obtain ⟨h1, h2, h3⟩ := ih j hj
      refine ⟨?_, ?_, ?_⟩
      · simp only [List.take_succ_cons, List.drop_succ_cons, List.cons_append]
        rw [← h1]
      · simp only [List.take_succ_cons, List.mem_cons, not_or]
        exact ⟨fun e => hx e.symm, h2⟩
      · simp; omega

theorem IndexByte_append (pre post : List Nat) (c : Nat) (h : c ∉ pre) :
    bytes.IndexByte (pre ++ c :: post) c = some pre.length := by
  induction pre with
  | nil => simp [bytes.IndexByte]
  | cons x xs ih =>
    simp only [List.mem_cons, not_or] at h
    have hx : ¬ x = c := fun e => h.1 e.symm
    simp [bytes.IndexByte, hx, ih h.2]

theorem records_no_newline (l : List Nat) (h : 10 ∉ l) :
    records l = if l = [] then [] else [l] := by
  induction l with
  | nil => simp [records]
  | cons x xs ih =>
    simp only [List.mem_cons, not_or] at h
    have hx : ¬ x = 10 := fun e => h.1 e.symm
    rw [records, if_neg hx, ih h.2]
    by_cases hxs : xs = []
    · simp [hxs]
    · simp [hxs]

theorem records_append (pre post : List Nat) (h : 10 ∉ pre) :
    records (pre ++ 10 :: post) = pre :: records post := by
  induction pre with
  | nil => simp [records]
  | cons x xs ih =>
    simp only [List.mem_cons, not_or] at h
    have hx : ¬ x = 10 := fun e => h.1 e.symm
    rw [List.cons_append, records, if_neg hx, ih h.2]

theorem IndexByte_take (l : List Nat) (c m : Nat) :
    bytes.IndexByte (l.take m) c =
      match bytes.IndexByte l c with
      | some i => if i < m then some i else none
      | none => none := by
  induction l generalizing m with
  | nil => simp [bytes.IndexByte]
  | cons x xs ih =>
    cases m with
    | zero =>
      cases h : bytes.IndexByte (x :: xs) c <;> simp [bytes.IndexByte]
    | succ m =>
      by_cases hx : x = c
      · simp [bytes.IndexByte, hx]
      · simp only [List.take_succ_cons, bytes.IndexByte, hx, if_false, ih m]
        cases h : bytes.IndexByte xs c with
        | none => simp
        | some i =>
          by_cases hi : i < m
          · simp [hi]
          · simp [hi]

theorem records_eq_nil (l : List Nat) (h : records l = []) : l = [] := by
  cases l with
  | nil => rfl
  | cons x xs =>
    by_cases hx : x = 10
    · simp [records, hx] at h
    · rw [records, if_neg hx] at h
      cases hr : records xs <;> simp [hr] at h

theorem records_length (l : List Nat) :
    (records l).length = l.count 10 + fragment l := by
  induction l with
  | nil => simp [records, fragment]
  | cons x xs ih =>
    by_cases hx : x = 10
    · subst hx
      rw [records, if_pos rfl, List.length_cons, ih, List.count_cons_self]
      cases xs with
      | nil => simp [fragment]
      | cons y ys => simp [fragment, List.getLast?_cons_cons]; omega
    · rw [records, if_neg hx]
      have hc : (x :: xs).count 10 = xs.count 10 := by
        rw [List.count_cons_of_ne]; exact fun e => hx e.symm
      cases xs with
      | nil => simp [records, fragment, hx, List.count_cons_of_ne (Ne.symm hx)]
      | cons y ys =>
        have hf : fragment (x :: y :: ys) = fragment (y :: ys) := by
          simp [fragment, List.getLast?_cons_cons]
        rw [hc, hf, ← ih]
        cases hr : records (y :: ys) with
        | nil => exact absurd (records_eq_nil _ hr) (by simp)
        | cons r rs => simp

theorem records_of_IndexByte (l : List Nat) (i : Nat) (h : bytes.IndexByte l 10 = some i) :
    records l = l.take i :: records (l.drop (i + 1)) ∧ i < l.length := by
  obtain ⟨h1, h2, h3⟩ := IndexByte_some l 10 i h
  refine ⟨?_, h3⟩
  conv_lhs => rw [h1]
  exact records_append _ _ h2

/-- The line scanner on the rest of a stream: the tokens are the records that
come before the first record that does not fit in the buffer, each with a
terminal carriage return dropped; the final error is the reader's when every
record fits, and `ErrTooLong` otherwise. -/
theorem scanLines_eq (max : Nat) (e : GoError) (hmax : 0 < max) :
    ∀ (fuel : Nat) (rest : List Nat), rest.length < fuel →
      bufio.scanAll bufio.ScanLines max e fuel rest =
        (((records rest).takeWhile (fun rec => decide (rec.length < max))).map bufio.dropCR,
          if (records rest).all (fun rec => decide (rec.length < max)) then e
          else GoError.ErrTooLong) := by
  intro fuel
  induction fuel with
  | zero => intro rest h; omega
  | succ fuel ih =>
    intro rest hlen
    by_cases hlt : rest.length < max
    · -- the rest of the stream is read to its end
      by_cases hnil : rest = []
      · subst hnil
        simp [bufio.scanAll, hmax, bufio.ScanLines, records]
      · have hpos : 0 < rest.length := List.length_pos.mpr hnil
        cases hidx : bytes.IndexByte rest 10 with
        | none =>
          have hS : bufio.ScanLines rest true = (rest.length, some (bufio.dropCR rest)) := by
            simp [bufio.ScanLines, hidx, hnil]
          have hrec : records rest = [rest] := by
            rw [records_no_newline rest ((IndexByte_none_iff rest 10).mp hidx)]
            simp [hnil]
          have hnext := ih [] (by simp; omega)
          simp only [bufio.scanAll, hlt, if_true, hS, List.drop_length, hnext, hrec]
          simp [records, hlt]
        | some i =>
          obtain ⟨hrec, hi⟩ := records_of_IndexByte rest i hidx
          have hS : bufio.ScanLines rest true =
              (i + 1, some (bufio.dropCR (rest.take i))) := by
            simp [bufio.ScanLines, hidx, hnil]
          have hdl : (rest.drop (i + 1)).length < fuel := by
            simp only [List.length_drop]; omega
          have hhead : (rest.take i).length < max := by
            simp only [List.length_take]; omega
          have him : i < max := by omega
          simp only [bufio.scanAll, hlt, if_true, hS, hrec, ih _ hdl]
          simp [List.takeWhile_cons, him]
    · -- the buffer fills up before the end of the stream
      have hnil : rest ≠ [] := by
        intro h; subst h; simp at hlt; omega
      have hidxw := IndexByte_take rest 10 max
      cases hidx : bytes.IndexByte rest 10 with
      | none =>
        rw [hidx] at hidxw
        have hS : bufio.ScanLines (rest.take max) false = (0, none) := by
          simp [bufio.ScanLines, hidxw]
        have hrec : records rest = [rest] := by
          rw [records_no_newline rest ((IndexByte_none_iff rest 10).mp hidx)]
          simp [hnil]
        simp only [bufio.scanAll, hlt, if_false, hS, hrec]
        simp [List.takeWhile_cons, hlt]
      | some i =>
        obtain ⟨hrec, hi⟩ := records_of_IndexByte rest i hidx
        rw [hidx] at hidxw
        by_cases him : i < max
        · simp only [him, if_true] at hidxw
          have htt : (rest.take max).take i = rest.take i := by
            rw [List.take_take]; congr 1; omega
          have hS : bufio.ScanLines (rest.take max) false =
              (i + 1, some (bufio.dropCR (rest.take i))) := by
            simp [bufio.ScanLines, hidxw, htt]
          have hdl : (rest.drop (i + 1)).length < fuel := by
            simp only [List.length_drop]; omega
          have hhead : (rest.take i).length < max := by
            simp only [List.length_take]; omega
          simp only [bufio.scanAll, hlt, if_false, hS, hrec, ih _ hdl]
          simp [List.takeWhile_cons, him]
        · simp only [him, if_false] at hidxw
          have hS : bufio.ScanLines (rest.take max) false = (0, none) := by
            simp [bufio.ScanLines, hidxw]
          have hhead : ¬ (rest.take i).length < max := by
            simp only [List.length_take]; omega
          simp only [bufio.scanAll, hlt, if_false, hS, hrec]
          simp [List.takeWhile_cons, him, hlt]

theorem scanLines_records (max : Nat) (e : GoError) (hmax : 0 < max) :
    ∀ (fuel : Nat) (rest : List Nat), rest.length < fuel →
      ((∀ r ∈ records rest, r.length < max) →
        bufio.scanAll bufio.ScanLines max e fuel rest =
          ((records rest).map bufio.dropCR, e)) ∧
      (¬ (∀ r ∈ records rest, r.length < max) →
        (bufio.scanAll bufio.ScanLines max e fuel rest).2 = GoError.ErrTooLong) := by
  intro fuel rest hlen
  rw [scanLines_eq max e hmax fuel rest hlen]
  constructor
  · intro hfit
    have h1 : (records rest).all (fun rec => decide (rec.length < max)) = true := by
      simpa using hfit
    have h2 : (records rest).takeWhile (fun rec => decide (rec.length < max)) = records rest := by
      rw [List.takeWhile_eq_self_iff]
      simpa using hfit
    rw [h1, h2]
    simp
  · intro hunfit
    have h1 : ¬ (records rest).all (fun rec => decide (rec.length < max)) = true := by
      simpa using hunfit
    simp [h1]

/-! ### The scanning loop of processInput -/

theorem foldl_countLine (ts : List (List Nat)) (c : Counts) :
    ts.foldl countLine c =
      { lines := c.lines + ts.length
        words := c.words + (ts.map (fun t => (splitWords t).length)).sum
        chars := c.chars + (ts.map (fun t => (toRunes t).length)).sum
        bytes := c.bytes + (ts.map (fun t => t.length + 1)).sum } := by
  induction ts generalizing c with
  | nil => simp
  | cons t ts ih =>
    rw [List.foldl_cons, ih]
    simp only [countLine, List.length_cons, List.map_cons, List.sum_cons, Counts.mk.injEq]
    refine ⟨?_, ?_, ?_, ?_⟩ <;> omega

theorem processInput_ok_iff (r : Reader) (label : List Nat) (st : State) :
    (processInput r label st).1 = none ↔ scanErr r = none := by
  unfold processInput
  cases h : scanErr r <;> simp

theorem scanErr_none (r : Reader) (h : scanErr r = none) :
    (∀ rec ∈ records r.data, rec.length < bufio.MaxScanTokenSize) ∧ r.err = GoError.EOF ∧
      bufio.Scanner.run bufio.ScanLines r = ((records r.data).map bufio.dropCR, GoError.EOF) := by
  have hmax : 0 < bufio.MaxScanTokenSize := by decide
  obtain ⟨h1, h2⟩ := scanLines_records bufio.MaxScanTokenSize r.err hmax
    (r.data.length + 1) r.data (Nat.lt_succ_self _)
  have hE : (bufio.Scanner.run bufio.ScanLines r).2 = GoError.EOF := by
    unfold scanErr bufio.Scanner.Err at h
    by_contra hne
    simp [hne] at h
  by_cases hfit : ∀ rec ∈ records r.data, rec.length < bufio.MaxScanTokenSize
  · have hrun := h1 hfit
    unfold bufio.Scanner.run at hE ⊢
    rw [hrun] at hE ⊢
    simp only at hE
    exact ⟨hfit, hE, by rw [hE]⟩
  · have := h2 hfit
    unfold bufio.Scanner.run at hE
    rw [this] at hE
    exact absurd hE (by decide)

theorem scanErr_of_fit (r : Reader)
    (hfit : ∀ rec ∈ records r.data, rec.length < bufio.MaxScanTokenSize) :
    bufio.Scanner.run bufio.ScanLines r = ((records r.data).map bufio.dropCR, r.err) := by
  have hmax : 0 < bufio.MaxScanTokenSize := by decide
  exact (scanLines_records bufio.MaxScanTokenSize r.err hmax
    (r.data.length + 1) r.data (Nat.lt_succ_self _)).1 hfit

/-- On success the counts are sums over the records of the input, each with a
terminal carriage return dropped. -/
theorem countInput_of_ok (r : Reader) (h : scanErr r = none) :
    countInput r =
      { lines := (records r.data).length
        words := ((records r.data).map (fun t => (splitWords (bufio.dropCR t)).length)).sum
        chars := ((records r.data).map (fun t => (toRunes (bufio.dropCR t)).length)).sum
        bytes := ((records r.data).map (fun t => (bufio.dropCR t).length + 1)).sum } := by
  obtain ⟨_, _, hrun⟩ := scanErr_none r h
  unfold countInput
  rw [hrun, foldl_countLine]
  simp [List.map_map, Function.comp_def]

theorem records_sum_length (l : List Nat) :
    ((records l).map (fun t => t.length + 1)).sum = l.length + fragment l := by
  induction l with
  | nil => simp [records, fragment]
  | cons x xs ih =>
    by_cases hx : x = 10
    · subst hx
      rw [records, if_pos rfl, List.map_cons, List.sum_cons, ih]
      cases xs with
      | nil => simp [fragment]
      | cons y ys => simp [fragment, List.getLast?_cons_cons]; omega
    · rw [records, if_neg hx]
      cases xs with
      | nil => simp [records, fragment, hx]
      | cons y ys =>
        have hf : fragment (x :: y :: ys) = fragment (y :: ys) := by
          simp [fragment, List.getLast?_cons_cons]
        rw [hf]
        cases hr : records (y :: ys) with
        | nil => exact absurd (records_eq_nil _ hr) (by simp)
        | cons rec rs =>
          rw [hr] at ih
          simp only [List.map_cons, List.sum_cons, List.length_cons] at ih ⊢
          omega

theorem dropCR_of_ne (t : List Nat) (h : t.getLast? ≠ some 13) : bufio.dropCR t = t := by
  unfold bufio.dropCR
  rw [List.getLast?_eq_getElem?] at h
  simp [h]

theorem dropCR_concat (t : List Nat) : bufio.dropCR (t ++ [13]) = t := by
  unfold bufio.dropCR
  simp

/-! ### UTF-8 decoding -/

theorem first_cases (b : Nat) :
    utf8.first b = 0xF0 ∨ utf8.first b = 0xF1 ∨ utf8.first b = 0x02 ∨ utf8.first b = 0x13 ∨
      utf8.first b = 0x03 ∨ utf8.first b = 0x23 ∨ utf8.first b = 0x34 ∨ utf8.first b = 0x04 ∨
      utf8.first b = 0x44 := by
  unfold utf8.first
  split_ifs <;> simp

theorem DecodeRune_width (p : List Nat) (h : p ≠ []) :
    1 ≤ (utf8.DecodeRune p).2 ∧ (utf8.DecodeRune p).2 ≤ p.length := by
  cases p with
  | nil => exact absurd rfl h
  | cons p0 ps =>
    unfold utf8.DecodeRune
    rcases first_cases p0 with hf | hf | hf | hf | hf | hf | hf | hf | hf <;>
      simp only [hf] <;> norm_num <;> split_ifs <;> simp_all

theorem DecodeRune_ascii (b : Nat) (bs : List Nat) (h : b < 128) :
    utf8.DecodeRune (b :: bs) = (b, 1) := by
  have hf : utf8.first b = 0xF0 := by
    unfold utf8.first; simp [h]
  simp [utf8.DecodeRune, hf]

theorem DecodeRune_append_ascii (a c : List Nat) (b : Nat) (ha : a ≠ []) (hb : b < 128) :
    utf8.DecodeRune (a ++ b :: c) = utf8.DecodeRune a := by
  match a, ha with
  | [a0], _ =>
    simp only [List.cons_append, List.nil_append, utf8.DecodeRune]
    rcases first_cases a0 with hf | hf | hf | hf | hf | hf | hf | hf | hf <;>
      simp [hf, utf8.acceptRanges] <;> omega
  | [a0, a1], _ =>
    simp only [List.cons_append, List.nil_append, utf8.DecodeRune]
    rcases first_cases a0 with hf | hf | hf | hf | hf | hf | hf | hf | hf <;>
      simp [hf, utf8.acceptRanges] <;> omega
  | [a0, a1, a2], _ =>
    simp only [List.cons_append, List.nil_append, utf8.DecodeRune]
    rcases first_cases a0 with hf | hf | hf | hf | hf | hf | hf | hf | hf <;>
      simp [hf, utf8.acceptRanges] <;> omega
  | a0 :: a1 :: a2 :: a3 :: as, _ =>
    simp only [List.cons_append, utf8.DecodeRune]
    rcases first_cases a0 with hf | hf | hf | hf | hf | hf | hf | hf | hf <;>
      simp [hf, utf8.acceptRanges] <;> split_ifs <;> first | rfl | omega

theorem toRunesAux_fuel (fuel1 : Nat) :
    ∀ (fuel2 : Nat) (p : List Nat), p.length ≤ fuel1 → p.length ≤ fuel2 →
      toRunesAux fuel1 p = toRunesAux fuel2 p := by
  induction fuel1 with
  | zero =>
    intro fuel2 p h1 _
    have hp : p = [] := List.length_eq_zero.mp (Nat.le_zero.mp h1)
    subst hp
    cases fuel2 <;> simp [toRunesAux]
  | succ fuel1 ih =>
    intro fuel2 p h1 h2
    cases p with
    | nil => cases fuel2 <;> simp [toRunesAux]
    | cons b bs =>
      cases fuel2 with
      | zero => simp at h2
      | succ fuel2 =>
        have hw := DecodeRune_width (b :: bs) (by simp)
        simp only [toRunesAux]
        congr 1
        apply ih
        · simp only [List.length_drop, List.length_cons] at h1 ⊢; omega
        · simp only [List.length_drop, List.length_cons] at h2 ⊢; omega

theorem toRunes_nil : toRunes [] = [] := by
  simp [toRunes, toRunesAux]

theorem toRunes_step (p : List Nat) (h : p ≠ []) :
    toRunes p = (utf8.DecodeRune p).1 :: toRunes (p.drop (utf8.DecodeRune p).2) := by
  cases p with
  | nil => exact absurd rfl h
  | cons b bs =>
    have hw := DecodeRune_width (b :: bs) (by simp)
    unfold toRunes
    simp only [List.length_cons, toRunesAux]
    congr 1
    apply toRunesAux_fuel
    · simp only [List.length_drop, List.length_cons]; omega
    · exact le_refl _

theorem toRunes_cons_ascii (b : Nat) (bs : List Nat) (h : b < 128) :
    toRunes (b :: bs) = b :: toRunes bs := by
  rw [toRunes_step _ (by simp), DecodeRune_ascii b bs h]
  simp

/-- Decoding resynchronises at every ASCII byte. -/
theorem toRunes_append_ascii (b : Nat) (c : List Nat) (hb : b < 128) :
    ∀ (n : Nat) (a : List Nat), a.length ≤ n →
      toRunes (a ++ b :: c) = toRunes a ++ b :: toRunes c := by
  intro n
  induction n with
  | zero =>
    intro a ha
    have : a = [] := List.length_eq_zero.mp (Nat.le_zero.mp ha)
    subst this
    simp [toRunes_nil, toRunes_cons_ascii b c hb]
  | succ n ih =>
    intro a ha
    by_cases hnil : a = []
    · subst hnil
      simp [toRunes_nil, toRunes_cons_ascii b c hb]
    · have hw := DecodeRune_width a hnil
      have hd := DecodeRune_append_ascii a c b hnil hb
      rw [toRunes_step (a ++ b :: c) (by simp), toRunes_step a hnil, hd]
      rw [List.drop_append_of_le_length hw.2]
      rw [ih (a.drop (utf8.DecodeRune a).2) (by simp only [List.length_drop]; omega)]
      simp

theorem toRunes_ascii (l : List Nat) (h : ∀ b ∈ l, b < 128) : toRunes l = l := by
  induction l with
  | nil => exact toRunes_nil
  | cons x xs ih =>
    rw [toRunes_cons_ascii x xs (h x (by simp)), ih (fun b hb => h b (by simp [hb]))]

theorem records_mem (l : List Nat) :
    ∀ rec ∈ records l, ∀ b ∈ rec, b ∈ l := by
  induction l with
  | nil => simp [records]
  | cons x xs ih =>
    intro rec hrec b hb
    by_cases hx : x = 10
    · rw [records, if_pos hx] at hrec
      rcases List.mem_cons.mp hrec with h | h
      · subst h; simp at hb
      · exact List.mem_cons_of_mem _ (ih rec h b hb)
    · rw [records, if_neg hx] at hrec
      cases hr : records xs with
      | nil =>
        rw [hr] at hrec
        simp only [List.mem_singleton] at hrec
        subst hrec
        simp only [List.mem_singleton] at hb
        simp [hb]
      | cons r rs =>
        rw [hr] at hrec ih
        rcases List.mem_cons.mp hrec with h | h
        · subst h
          rcases List.mem_cons.mp hb with h2 | h2
          · simp [h2]
          · exact List.mem_cons_of_mem _ (ih r (by simp) b h2)
        · exact List.mem_cons_of_mem _ (ih rec (List.mem_cons_of_mem _ h) b hb)

theorem dropCR_mem (t : List Nat) : ∀ b ∈ bufio.dropCR t, b ∈ t := by
  intro b hb
  unfold bufio.dropCR at hb
  split_ifs at hb
  · exact List.mem_of_mem_take hb
  · exact hb

theorem first_ranges (b : Nat) :
    (utf8.first b = 0xF0 → b < 0x80) ∧
    (utf8.first b = 0x02 → 0xC2 ≤ b ∧ b < 0xE0) ∧
    (utf8.first b = 0x13 → b = 0xE0) ∧
    (utf8.first b = 0x03 → (0xE1 ≤ b ∧ b < 0xED) ∨ (0xEE ≤ b ∧ b < 0xF0)) ∧
    (utf8.first b = 0x23 → b = 0xED) ∧
    (utf8.first b = 0x34 → b = 0xF0) ∧
    (utf8.first b = 0x04 → 0xF1 ≤ b ∧ b < 0xF4) ∧
    (utf8.first b = 0x44 → b = 0xF4) ∧
    (utf8.first b = 0xF1 → (0x80 ≤ b ∧ b < 0xC2) ∨ 0xF5 ≤ b) := by
  unfold utf8.first
  split_ifs <;> simp <;> omega

theorem encodeRune_length (c : Nat) :
    1 ≤ (utf8.encodeRune c).length := by
  unfold utf8.encodeRune
  split_ifs <;> simp

theorem DecodeRune_encodeRune (c : Nat) (rest : List Nat) (hc : utf8.isScalar c = true) :
    (utf8.DecodeRune (utf8.encodeRune c ++ rest)).2 = (utf8.encodeRune c).length := by
  have hc2 : c < 0xD800 ∨ (0xE000 ≤ c ∧ c < 0x110000) := by
    simpa [utf8.isScalar] using hc
  unfold utf8.encodeRune
  split_ifs with h1 h2 h3
  · simp [DecodeRune_ascii c rest h1]
  · simp only [List.cons_append, List.nil_append, utf8.DecodeRune]
    obtain ⟨r0, r1, r2, r3, r4, r5, r6, r7, r8⟩ := first_ranges (0xC0 + c / 64)
    rcases first_cases (0xC0 + c / 64) with hf | hf | hf | hf | hf | hf | hf | hf | hf
    all_goals first
      | (have q := r0 hf; omega) | (have q := r1 hf; omega) | (have q := r2 hf; omega)
      | (have q := r3 hf; omega) | (have q := r4 hf; omega) | (have q := r5 hf; omega)
      | (have q := r6 hf; omega) | (have q := r7 hf; omega) | (have q := r8 hf; omega)
      | (simp [hf, utf8.acceptRanges]; split_ifs <;> first | rfl | omega)
  · simp only [List.cons_append, List.nil_append, utf8.DecodeRune]
    obtain ⟨r0, r1, r2, r3, r4, r5, r6, r7, r8⟩ := first_ranges (0xE0 + c / 4096)
    rcases first_cases (0xE0 + c / 4096) with hf | hf | hf | hf | hf | hf | hf | hf | hf
    all_goals first
      | (have q := r0 hf; omega) | (have q := r1 hf; omega) | (have q := r2 hf; omega)
      | (have q := r3 hf; omega) | (have q := r4 hf; omega) | (have q := r5 hf; omega)
      | (have q := r6 hf; omega) | (have q := r7 hf; omega) | (have q := r8 hf; omega)
      | (simp [hf, utf8.acceptRanges]; split_ifs <;> first | rfl | omega)
  · simp only [List.cons_append, List.nil_append, utf8.DecodeRune]
    obtain ⟨r0, r1, r2, r3, r4, r5, r6, r7, r8⟩ := first_ranges (0xF0 + c / 262144)
    rcases first_cases (0xF0 + c / 262144) with hf | hf | hf | hf | hf | hf | hf | hf | hf
    all_goals first
      | (have q := r0 hf; omega) | (have q := r1 hf; omega) | (have q := r2 hf; omega)
      | (have q := r3 hf; omega) | (have q := r4 hf; omega) | (have q := r5 hf; omega)
      | (have q := r6 hf; omega) | (have q := r7 hf; omega) | (have q := r8 hf; omega)
      | (simp [hf, utf8.acceptRanges]; split_ifs <;> first | rfl | omega)

theorem records_cases_induction (P : List Nat → Prop)
    (hno : ∀ l, 10 ∉ l → P l)
    (hstep : ∀ pre post, 10 ∉ pre → P post → P (pre ++ 10 :: post)) :
    ∀ l, P l := by
  have key : ∀ (n : Nat) (l : List Nat), l.length ≤ n → P l := by
    intro n
    induction n with
    | zero =>
      intro l hl
      have : l = [] := List.length_eq_zero.mp (Nat.le_zero.mp hl)
      subst this
      exact hno [] (by simp)
    | succ n ih =>
      intro l hl
      cases hidx : bytes.IndexByte l 10 with
      | none => exact hno l ((IndexByte_none_iff l 10).mp hidx)
      | some i =>
        obtain ⟨h1, h2, h3⟩ := IndexByte_some l 10 i hidx
        rw [h1]
        apply hstep _ _ h2
        apply ih
        simp only [List.length_drop]
        omega
  intro l
  exact key l.length l (le_refl _)

theorem records_sum_runes (l : List Nat) :
    ((records l).map (fun t => (toRunes t).length)).sum + l.count 10 = (toRunes l).length := by
  induction l using records_cases_induction with
  | hno l h =>
    rw [records_no_newline l h, List.count_eq_zero_of_not_mem h]
    by_cases hl : l = []
    · simp [hl, toRunes_nil]
    · simp [hl]
  | hstep pre post h ih =>
    rw [records_append pre post h, toRunes_append_ascii 10 post (by norm_num) pre.length pre (le_refl _)]
    simp only [List.map_cons, List.sum_cons, List.count_append, List.count_cons_self,
      List.count_eq_zero_of_not_mem h, List.length_append, List.length_cons]
    omega

theorem toRunes_encode (cps : List Nat) (h : ∀ c ∈ cps, utf8.isScalar c = true) :
    (toRunes (utf8.encode cps)).length = cps.length := by
  induction cps with
  | nil => simp [utf8.encode, toRunes_nil]
  | cons c cs ih =>
    have hne : utf8.encodeRune c ++ utf8.encode cs ≠ [] := by
      have := encodeRune_length c
      intro h0
      have h1 := congrArg List.length h0
      simp only [List.length_append, List.length_nil] at h1
      omega
    rw [utf8.encode, toRunes_step _ hne, DecodeRune_encodeRune c _ (h c (by simp))]
    simp only [List.drop_left, List.length_cons]
    rw [ih (fun c2 h2 => h c2 (List.mem_cons_of_mem _ h2))]

theorem encodeRune_ascii_mem (c b : Nat) (hb : b < 128) (hm : b ∈ utf8.encodeRune c) :
    c = b ∧ utf8.encodeRune c = [b] := by
  unfold utf8.encodeRune at hm ⊢
  split_ifs at hm ⊢ with h1 h2 h3
  · simp only [List.mem_singleton] at hm
    subst hm
    exact ⟨rfl, rfl⟩
  all_goals
    simp only [List.mem_cons, List.mem_singleton, List.not_mem_nil, or_false] at hm
    omega

theorem count_encode (cps : List Nat) (b : Nat) (hb : b < 128) :
    (utf8.encode cps).count b = cps.count b := by
  induction cps with
  | nil => simp [utf8.encode]
  | cons c cs ih =>
    rw [utf8.encode, List.count_append, ih]
    by_cases hc : c = b
    · subst hc
      have : utf8.encodeRune c = [c] := by
        unfold utf8.encodeRune; simp [hb]
      simp [this]; omega
    · have hnm : b ∉ utf8.encodeRune c := by
        intro hm
        exact hc (encodeRune_ascii_mem c b hb hm).1
      rw [List.count_eq_zero_of_not_mem hnm, List.count_cons_of_ne (Ne.symm hc)]
      omega


/-! ### The word scanner -/

theorem countRuns_append_space (space : Nat → Bool) (ws : Nat) (hws : space ws = true)
    (ys : List Nat) : ∀ (xs : List Nat) (b : Bool),
      countRuns space b (xs ++ ws :: ys) = countRuns space b xs + countRuns space false ys := by
  intro xs
  induction xs with
  | nil => intro b; simp [countRuns, hws]
  | cons x xs ih =>
    intro b
    by_cases hx : space x = true
    · simp [countRuns, hx, ih]
    · simp [countRuns, hx, ih]; omega

theorem skipSpaces_spec (data : List Nat) :
    ∀ (fuel start : Nat), data.length - start ≤ fuel →
      start ≤ bufio.skipSpaces data fuel start ∧
      (start ≤ data.length → bufio.skipSpaces data fuel start ≤ data.length) ∧
      countRuns bufio.isSpace false (toRunes (data.drop start)) =
        countRuns bufio.isSpace false (toRunes (data.drop (bufio.skipSpaces data fuel start))) ∧
      (bufio.skipSpaces data fuel start < data.length →
        bufio.isSpace (utf8.DecodeRune (data.drop (bufio.skipSpaces data fuel start))).1 = false) := by
  intro fuel
  induction fuel with
  | zero =>
    intro start h
    have hk : bufio.skipSpaces data 0 start = start := rfl
    rw [hk]
    refine ⟨le_refl _, fun h2 => h2, rfl, fun h2 => by omega⟩
  | succ fuel ih =>
    intro start h
    by_cases hlt : start < data.length
    · have hne : data.drop start ≠ [] := by
        intro h0
        have := congrArg List.length h0
        simp only [List.length_drop, List.length_nil] at this
        omega
      have hw := DecodeRune_width (data.drop start) hne
      simp only [List.length_drop] at hw
      by_cases hsp : bufio.isSpace (utf8.DecodeRune (data.drop start)).1 = true
      · have hk : bufio.skipSpaces data (fuel + 1) start =
            bufio.skipSpaces data fuel (start + (utf8.DecodeRune (data.drop start)).2) := by
          simp [bufio.skipSpaces, hlt, hsp]
        obtain ⟨i1, i2, i3, i4⟩ := ih (start + (utf8.DecodeRune (data.drop start)).2) (by omega)
        rw [hk]
        refine ⟨by omega, fun _ => i2 (by omega), ?_, i4⟩
        rw [← i3, toRunes_step _ hne, List.drop_drop]
        simp [countRuns, hsp, Nat.add_comm]
      · have hk : bufio.skipSpaces data (fuel + 1) start = start := by
          simp [bufio.skipSpaces, hlt, hsp]
        rw [hk]
        refine ⟨le_refl _, fun h2 => h2, rfl, fun _ => by simpa using hsp⟩
    · have hk : bufio.skipSpaces data (fuel + 1) start = start := by
        simp [bufio.skipSpaces, hlt]
      rw [hk]
      refine ⟨le_refl _, fun h2 => h2, rfl, fun h2 => absurd h2 hlt⟩

theorem findSpace_spec (data : List Nat) :
    ∀ (fuel i : Nat), data.length - i ≤ fuel →
      match bufio.findSpace data fuel i with
      | some (j, w) =>
        i ≤ j ∧ j < data.length ∧ 1 ≤ w ∧ j + w ≤ data.length ∧
          countRuns bufio.isSpace true (toRunes (data.drop i)) =
            countRuns bufio.isSpace false (toRunes (data.drop (j + w)))
      | none => countRuns bufio.isSpace true (toRunes (data.drop i)) = 0 := by
  intro fuel
  induction fuel with
  | zero =>
    intro i h
    have : data.drop i = [] := List.drop_eq_nil_of_le (by omega)
    simp [bufio.findSpace, this, toRunes_nil, countRuns]
  | succ fuel ih =>
    intro i h
    by_cases hlt : i < data.length
    · have hne : data.drop i ≠ [] := by
        intro h0
        have := congrArg List.length h0
        simp only [List.length_drop, List.length_nil] at this
        omega
      have hw := DecodeRune_width (data.drop i) hne
      simp only [List.length_drop] at hw
      by_cases hsp : bufio.isSpace (utf8.DecodeRune (data.drop i)).1 = true
      · have hk : bufio.findSpace data (fuel + 1) i =
            some (i, (utf8.DecodeRune (data.drop i)).2) := by
          simp [bufio.findSpace, hlt, hsp]
        rw [hk]
        refine ⟨le_refl _, hlt, hw.1, by omega, ?_⟩
        rw [toRunes_step _ hne, List.drop_drop]
        simp [countRuns, hsp, Nat.add_comm]
      · have hk : bufio.findSpace data (fuel + 1) i =
            bufio.findSpace data fuel (i + (utf8.DecodeRune (data.drop i)).2) := by
          simp [bufio.findSpace, hlt, hsp]
        have hi := ih (i + (utf8.DecodeRune (data.drop i)).2) (by omega)
        have hcount : countRuns bufio.isSpace true (toRunes (data.drop i)) =
            countRuns bufio.isSpace true
              (toRunes (data.drop (i + (utf8.DecodeRune (data.drop i)).2))) := by
          rw [toRunes_step _ hne, List.drop_drop]
          simp [countRuns, hsp, Nat.add_comm]
        rw [hk, hcount]
        cases hf : bufio.findSpace data fuel (i + (utf8.DecodeRune (data.drop i)).2) with
        | none => rw [hf] at hi; exact hi
        | some jw =>
          obtain ⟨j, w⟩ := jw
          rw [hf] at hi
          obtain ⟨h1, h2, h3, h4, h5⟩ := hi
          exact ⟨by omega, h2, h3, h4, h5⟩
    · have : data.drop i = [] := List.drop_eq_nil_of_le (by omega)
      simp [bufio.findSpace, hlt, this, toRunes_nil, countRuns]

theorem countRuns_start (data : List Nat) (start : Nat) (hlt : start < data.length)
    (hsp : bufio.isSpace (utf8.DecodeRune (data.drop start)).1 = false) :
    countRuns bufio.isSpace false (toRunes (data.drop start)) =
      1 + countRuns bufio.isSpace true (toRunes (data.drop start)) := by
  have hne : data.drop start ≠ [] := by
    intro h0
    have := congrArg List.length h0
    simp only [List.length_drop, List.length_nil] at this
    omega
  rw [toRunes_step _ hne]
  simp [countRuns, hsp]

/-- The word scanner on a text shorter than the buffer yields as many tokens
as the runes of the text have maximal runs without white space. -/
theorem scanWords_length (max : Nat) (e : GoError) :
    ∀ (fuel : Nat) (rest : List Nat), rest.length < fuel → rest.length < max →
      (bufio.scanAll bufio.ScanWords max e fuel rest).1.length =
        countRuns bufio.isSpace false (toRunes rest) := by
  intro fuel
  induction fuel with
  | zero => intro rest h; omega
  | succ fuel ih =>
    intro rest hlen hmax
    obtain ⟨s1, s2, s3, s4⟩ := skipSpaces_spec rest rest.length 0 (by omega)
    have s2 := s2 (Nat.zero_le _)
    simp only [List.drop_zero] at s3
    have hfs := findSpace_spec rest rest.length (bufio.skipSpaces rest rest.length 0) (by omega)
    cases hf : bufio.findSpace rest rest.length (bufio.skipSpaces rest rest.length 0) with
    | some jw =>
      obtain ⟨j, w⟩ := jw
      rw [hf] at hfs
      obtain ⟨f1, f2, f3, f4, f5⟩ := hfs
      have hS : bufio.ScanWords rest true =
          (j + w, some ((rest.take j).drop (bufio.skipSpaces rest rest.length 0))) := by
        simp [bufio.ScanWords, hf]
      have hnext := ih (rest.drop (j + w)) (by simp only [List.length_drop]; omega)
        (by simp only [List.length_drop]; omega)
      simp only [bufio.scanAll, hmax, if_true, hS, List.length_cons, hnext]
      rw [s3, countRuns_start rest _ (by omega) (s4 (by omega)), f5]
      omega
    | none =>
      rw [hf] at hfs
      by_cases hgt : rest.length > bufio.skipSpaces rest rest.length 0
      · have hS : bufio.ScanWords rest true =
            (rest.length, some (rest.drop (bufio.skipSpaces rest rest.length 0))) := by
          simp [bufio.ScanWords, hf, hgt]
        have hnext := ih [] (by simp; omega) (by simp; omega)
        simp only [bufio.scanAll, hmax, if_true, hS, List.length_cons, List.drop_length, hnext]
        rw [s3, countRuns_start rest _ hgt (s4 hgt), hfs]
        simp [toRunes_nil, countRuns]
      · have hS : bufio.ScanWords rest true =
            (bufio.skipSpaces rest rest.length 0, none) := by
          simp [bufio.ScanWords, hf, hgt]
        have hd : rest.drop (bufio.skipSpaces rest rest.length 0) = [] :=
          List.drop_eq_nil_of_le (by omega)
        simp only [bufio.scanAll, hmax, if_true, hS, List.length_nil]
        rw [s3, hd, toRunes_nil]
        simp [countRuns]

theorem splitWords_length (s : List Nat) (h : s.length < bufio.MaxScanTokenSize) :
    (splitWords s).length = countRuns bufio.isSpace false (toRunes s) := by
  unfold splitWords bufio.Scanner.run strings.NewReader
  exact scanWords_length _ _ _ _ (Nat.lt_succ_self _) h

theorem dropCR_cases (t : List Nat) : bufio.dropCR t = t ∨ t = bufio.dropCR t ++ [13] := by
  by_cases h : t.getLast? = some 13
  · right
    have h1 : t.dropLast ++ [13] = t := List.dropLast_append_getLast? 13 (by simp [h])
    have h2 : bufio.dropCR t = t.dropLast := by
      unfold bufio.dropCR
      rw [List.getLast?_eq_getElem?] at h
      have hpos : 0 < t.length := by
        cases t with
        | nil => simp at h
        | cons x xs => simp
      simp [h, hpos, List.dropLast_eq_take]
    rw [h2, h1]
  · left
    exact dropCR_of_ne t h

theorem dropCR_length_le (t : List Nat) : (bufio.dropCR t).length ≤ t.length := by
  rcases dropCR_cases t with h | h
  · rw [h]
  · conv_rhs => rw [h]
    simp

theorem countRuns_dropCR (t : List Nat) :
    countRuns bufio.isSpace false (toRunes (bufio.dropCR t)) =
      countRuns bufio.isSpace false (toRunes t) := by
  rcases dropCR_cases t with h | h
  · rw [h]
  · conv_rhs => rw [h]
    rw [toRunes_append_ascii 13 [] (by norm_num) _ _ (le_refl _),
      countRuns_append_space bufio.isSpace 13 (by decide)]
    simp [toRunes_nil, countRuns]

theorem records_sum_runs (l : List Nat) :
    ((records l).map (fun t => countRuns bufio.isSpace false (toRunes (bufio.dropCR t)))).sum =
      countRuns bufio.isSpace false (toRunes l) := by
  induction l using records_cases_induction with
  | hno l h =>
    rw [records_no_newline l h]
    by_cases hl : l = []
    · simp [hl, toRunes_nil, countRuns]
    · simp [hl, countRuns_dropCR]
  | hstep pre post h ih =>
    rw [records_append pre post h,
      toRunes_append_ascii 10 post (by norm_num) pre.length pre (le_refl _),
      countRuns_append_space bufio.isSpace 10 (by decide)]
    simp only [List.map_cons, List.sum_cons]
    rw [ih, countRuns_dropCR]

/-! ### Reports, errors and the root command -/

theorem digitChar_toNat (d : Nat) (h : d < 10) : (Nat.digitChar d).toNat = 48 + d := by
  interval_cases d <;> rfl

theorem toDigitsCore_digits :
    ∀ (fuel n : Nat) (ds : List Char),
      (Nat.toDigitsCore 10 fuel n ds).map Char.toNat =
        fmt.digits fuel n ++ ds.map Char.toNat := by
  intro fuel
  induction fuel with
  | zero => intro n ds; simp [Nat.toDigitsCore, fmt.digits]
  | succ fuel ih =>
    intro n ds
    have hd := digitChar_toNat (n % 10) (Nat.mod_lt _ (by norm_num))
    by_cases hn : n < 10
    · have h0 : n / 10 = 0 := Nat.div_eq_of_lt hn
      have hm : n % 10 = n := Nat.mod_eq_of_lt hn
      rw [hm] at hd
      simp [Nat.toDigitsCore, fmt.digits, hn, h0, hd, hm]
    · have h0 : ¬ n / 10 = 0 := by omega
      simp [Nat.toDigitsCore, fmt.digits, hn, h0, ih, hd]

theorem formatInt_decimal (n : Nat) : fmt.formatInt n = decimal n := by
  unfold fmt.formatInt decimal Nat.toDigits
  rw [toDigitsCore_digits]
  simp

theorem pad8_leftpad (n : Nat) : fmt.pad8 n = List.leftpad 8 32 (decimal n) := by
  unfold fmt.pad8 List.leftpad
  rw [formatInt_decimal]

theorem printReport_stdout (c : Counts) (label : List Nat) (st : State) :
    (printReport c label st).stdout = st.stdout ++ reportText (shownCounts st c) label := by
  unfold printReport shownCounts selected reportText printCount
  cases h1 : st.showLines <;> cases h2 : st.showWords <;> cases h3 : st.showBytes <;>
    cases h4 : st.showChars <;> simp [h1, h2, h3, h4, pad8_leftpad]

theorem printReport_shown (c : Counts) (label : List Nat) (st : State) (c2 : Counts) :
    shownCounts (printReport c label st) c2 = shownCounts st c2 := by
  unfold printReport shownCounts selected printCount
  cases h1 : st.showLines <;> cases h2 : st.showWords <;> cases h3 : st.showBytes <;>
    cases h4 : st.showChars <;> simp [h1, h2, h3, h4]

theorem printedBy_eq (r : Reader) (label : List Nat) (st : State) :
    printedBy r label st =
      if scanErr r = none then reportText (shownCounts st (countInput r)) label else [] := by
  unfold printedBy processInput
  cases h : scanErr r with
  | none => simp [printReport_stdout]
  | some err => simp

theorem run_lines_eq (r : Reader) :
    bufio.Scanner.run bufio.ScanLines r =
      (((records r.data).takeWhile
          (fun rec => decide (rec.length < bufio.MaxScanTokenSize))).map bufio.dropCR,
        if (records r.data).all (fun rec => decide (rec.length < bufio.MaxScanTokenSize))
        then r.err else GoError.ErrTooLong) :=
  scanLines_eq bufio.MaxScanTokenSize r.err (by decide) (r.data.length + 1) r.data
    (Nat.lt_succ_self _)

theorem scanErr_eq (r : Reader) :
    scanErr r =
      if (∀ rec ∈ records r.data, rec.length < bufio.MaxScanTokenSize) then
        (if r.err = GoError.EOF then none else some r.err)
      else some GoError.ErrTooLong := by
  unfold scanErr bufio.Scanner.Err
  rw [run_lines_eq]
  by_cases hfit : ∀ rec ∈ records r.data, rec.length < bufio.MaxScanTokenSize
  · have h1 : (records r.data).all
        (fun rec => decide (rec.length < bufio.MaxScanTokenSize)) = true := by
      simpa using hfit
    rw [if_pos hfit]
    simp [h1]
  · have h1 : ¬ (records r.data).all
        (fun rec => decide (rec.length < bufio.MaxScanTokenSize)) = true := by
      simpa using hfit
    simp [h1, hfit]

theorem records_concat_newline (s : List Nat) (hne : s ≠ []) (hlast : s.getLast? ≠ some 10) :
    records (s ++ [10]) = records s := by
  induction s with
  | nil => exact absurd rfl hne
  | cons x xs ih =>
    cases xs with
    | nil =>
      have hx : ¬ x = 10 := by
        intro h; apply hlast; simp [h]
      simp [records, hx]
    | cons y ys =>
      have hl : (y :: ys).getLast? ≠ some 10 := by
        rw [List.getLast?_cons_cons] at hlast; exact hlast
      have ih2 := ih (by simp) hl
      conv_lhs => rw [List.cons_append, records, ih2]
      conv_rhs => rw [records]

theorem runDeferred_stdout (deferred : List (List Nat)) (st : State) :
    (runDeferred deferred st).stdout = st.stdout := by
  induction deferred generalizing st with
  | nil => rfl
  | cons f fs ih => rw [runDeferred, ih]

theorem processInput_fst (r : Reader) (label : List Nat) (st st2 : State) :
    (processInput r label st).1 = (processInput r label st2).1 := by
  unfold processInput
  cases scanErr r <;> rfl

theorem printedBy_shown (r : Reader) (label : List Nat) (st st2 : State)
    (h : ∀ c, shownCounts st2 c = shownCounts st c) :
    printedBy r label st2 = printedBy r label st := by
  rw [printedBy_eq, printedBy_eq, h]

theorem runFiles_spec (env : Env) (st : State) :
    ∀ (args deferred : List (List Nat)) (st2 : State),
      (∀ c, shownCounts st2 c = shownCounts st c) →
      (runFiles env args deferred st2).2.1.stdout =
          st2.stdout ++
            ((args.takeWhile (fun f => !fileFails env st f)).map (fileReport env st)).flatten ∧
        (runFiles env args deferred st2).1.isSome = args.any (fileFails env st) := by
  intro args
  induction args with
  | nil => intro deferred st2 _; simp [runFiles]
  | cons file files ih =>
    intro deferred st2 hsh
    cases hopen : env.openFile file with
    | error err =>
      have hf : fileFails env st file = true := by simp [fileFails, hopen]
      simp [runFiles, hopen, List.takeWhile_cons, hf]
    | ok f =>
      cases hse : scanErr f with
      | some err =>
        have hf : fileFails env st file = true := by
          simp [fileFails, hopen, processInput, hse]
        simp [runFiles, hopen, processInput, hse, List.takeWhile_cons, hf]
      | none =>
        have hf : fileFails env st file = false := by
          simp [fileFails, hopen, processInput, hse]
        have hrep : fileReport env st file =
            reportText (shownCounts st (countInput f)) file := by
          simp [fileReport, hopen, printedBy_eq, hse]
        have hsh2 : ∀ c, shownCounts (printReport (countInput f) file
            { st2 with fileLog := st2.fileLog ++ [FileEvent.opened file] }) c =
            shownCounts st c := by
          intro c
          rw [printReport_shown]
          exact hsh c
        obtain ⟨i1, i2⟩ := ih (file :: deferred) _ hsh2
        have hsh3 : shownCounts
            { st2 with fileLog := st2.fileLog ++ [FileEvent.opened file] } (countInput f) =
            shownCounts st (countInput f) := hsh (countInput f)
        simp only [runFiles, hopen, processInput, hse, i1, i2, List.takeWhile_cons, hf,
          List.any_cons, printReport_stdout, hsh3, hrep]
        simp [hrep]

/-! ### Flags, field widths and the log of files -/

theorem printReport_flags (c : Counts) (label : List Nat) (st : State) :
    flagsOf (printReport c label st) =
      if flagsOf st = (false, false, false, false) then (true, true, true, false)
      else flagsOf st := by
  unfold printReport flagsOf printCount
  cases h1 : st.showLines <;> cases h2 : st.showWords <;> cases h3 : st.showBytes <;>
    cases h4 : st.showChars <;> simp [h1, h2, h3, h4]

theorem printReport_frame (c : Counts) (label : List Nat) (st : State) :
    (printReport c label st).verbose = st.verbose ∧
      (printReport c label st).stderr = st.stderr ∧
      (printReport c label st).fileLog = st.fileLog := by
  unfold printReport printCount
  cases h1 : st.showLines <;> cases h2 : st.showWords <;> cases h3 : st.showBytes <;>
    cases h4 : st.showChars <;> simp [h1, h2, h3, h4]

theorem processInput_shown (r : Reader) (label : List Nat) (st : State) (c : Counts) :
    shownCounts (processInput r label st).2 c = shownCounts st c := by
  unfold processInput
  cases scanErr r with
  | none => exact printReport_shown _ _ _ _
  | some err => rfl

theorem processInput_stdout (r : Reader) (label : List Nat) (st : State) :
    (processInput r label st).2.stdout = st.stdout ++ printedBy r label st := by
  unfold printedBy processInput
  cases scanErr r with
  | none => simp [printReport_stdout]
  | some err => simp

theorem processInput_flags (r : Reader) (label : List Nat) (st : State) :
    flagsOf (processInput r label st).2 =
      (if (processInput r label st).1 = none ∧ flagsOf st = (false, false, false, false)
       then (true, true, true, false) else flagsOf st) := by
  unfold processInput
  cases scanErr r with
  | none =>
    simp only [true_and]
    exact printReport_flags _ _ _
  | some err => simp

theorem processInput_verbose (r : Reader) (label : List Nat) (st : State) :
    (processInput r label st).2.verbose = st.verbose := by
  unfold processInput
  cases scanErr r with
  | none => exact (printReport_frame _ _ _).1
  | some err => rfl

theorem digits_mem (fuel : Nat) : ∀ (n : Nat), ∀ b ∈ fmt.digits fuel n, 48 ≤ b ∧ b ≤ 57 := by
  induction fuel with
  | zero => intro n b hb; simp [fmt.digits] at hb
  | succ fuel ih =>
    intro n b hb
    unfold fmt.digits at hb
    split_ifs at hb with hn
    · simp only [List.mem_singleton] at hb
      omega
    · rcases List.mem_append.mp hb with h | h
      · exact ih _ b h
      · simp only [List.mem_singleton] at h
        omega

theorem digits_length_le (fuel : Nat) :
    ∀ (k n : Nat), n < 10 ^ (k + 1) → (fmt.digits fuel n).length ≤ k + 1 := by
  induction fuel with
  | zero => intro k n _; simp [fmt.digits]
  | succ fuel ih =>
    intro k n hn
    unfold fmt.digits
    split_ifs with h10
    · simp
    · cases k with
      | zero => simp at hn; omega
      | succ k =>
        have hdiv : n / 10 < 10 ^ (k + 1) := by
          rw [Nat.div_lt_iff_lt_mul (by norm_num)]
          rw [pow_succ] at hn
          exact hn
        have := ih k (n / 10) hdiv
        simp only [List.length_append, List.length_singleton]
        omega

theorem decimal_mem (n : Nat) : ∀ b ∈ decimal n, 48 ≤ b ∧ b ≤ 57 := by
  rw [← formatInt_decimal]
  exact digits_mem _ _

theorem decimal_length_le (n : Nat) (h : n < 10 ^ 8) : (decimal n).length ≤ 8 := by
  rw [← formatInt_decimal]
  exact digits_length_le _ 7 n h

theorem leftpad_length (n : Nat) :
    (List.leftpad 8 32 (decimal n)).length = max 8 (decimal n).length := by
  unfold List.leftpad
  simp only [List.length_append, List.length_replicate]
  omega

theorem reportText_length (fields label : List Nat) :
    (reportText fields label).length =
      (fields.map (fun n => max 8 (decimal n).length + 1)).sum + label.length + 1 := by
  unfold reportText
  induction fields with
  | nil => simp
  | cons n ns ih =>
    simp only [List.map_cons, List.flatten_cons, List.append_assoc, List.length_append,
      List.length_singleton, List.sum_cons, leftpad_length] at ih ⊢
    omega

theorem reportText_length_small (fields label : List Nat) (h : ∀ n ∈ fields, n < 10 ^ 8) :
    (reportText fields label).length = 9 * fields.length + label.length + 1 := by
  rw [reportText_length]
  have hsum : (fields.map (fun n => max 8 (decimal n).length + 1)).sum = 9 * fields.length := by
    induction fields with
    | nil => simp
    | cons n ns ih =>
      have h1 := decimal_length_le n (h n (by simp))
      have h2 := ih (fun m hm => h m (List.mem_cons_of_mem _ hm))
      simp only [List.map_cons, List.sum_cons, List.length_cons, h2]
      omega
  rw [hsum]

theorem reportText_fields (fields label : List Nat) :
    ∃ txt, reportText fields label = txt ++ label ++ [10] ∧ 10 ∉ txt := by
  refine ⟨(fields.map (fun n => List.leftpad 8 32 (decimal n) ++ [32])).flatten, rfl, ?_⟩
  intro hm
  rw [List.mem_flatten] at hm
  obtain ⟨l, hl, hb⟩ := hm
  rw [List.mem_map] at hl
  obtain ⟨n, _, rfl⟩ := hl
  unfold List.leftpad at hb
  rcases List.mem_append.mp hb with h | h
  · rcases List.mem_append.mp h with h2 | h2
    · have := (List.mem_replicate.mp h2).2
      omega
    · have := decimal_mem n 10 h2
      omega
  · simp at h

theorem scanErr_replicate (n : Nat) (e : GoError) (h : bufio.MaxScanTokenSize ≤ n) :
    scanErr ⟨List.replicate n 97, e⟩ = some GoError.ErrTooLong := by
  have hpos : 0 < bufio.MaxScanTokenSize := by decide
  have hmem : (10 : Nat) ∉ List.replicate n 97 := by
    intro hm
    have := (List.mem_replicate.mp hm).2
    omega
  have hne : List.replicate n 97 ≠ [] := by
    intro h0
    have := congrArg List.length h0
    simp only [List.length_replicate, List.length_nil] at this
    omega
  rw [scanErr_eq]
  simp only
  rw [records_no_newline _ hmem, if_neg hne, if_neg]
  intro hall
  have := hall (List.replicate n 97) (by simp)
  simp only [List.length_replicate] at this
  omega

theorem processInput_ok_fit (r : Reader) (label : List Nat) (st : State) :
    (processInput r label st).1 = none ↔
      (r.err = GoError.EOF ∧ ∀ rec ∈ records r.data, rec.length < bufio.MaxScanTokenSize) := by
  rw [processInput_ok_iff, scanErr_eq]
  by_cases hfit : ∀ rec ∈ records r.data, rec.length < bufio.MaxScanTokenSize
  · rw [if_pos hfit]
    by_cases he : r.err = GoError.EOF
    · simp only [he, if_true, true_and]
      exact ⟨fun _ => hfit, fun _ => trivial⟩
    · simp [he]
  · rw [if_neg hfit]
    simp [hfit]

theorem long_record_fails (n : Nat) (label : List Nat) (st : State)
    (h : bufio.MaxScanTokenSize ≤ n) :
    (processInput ⟨List.replicate n 97, GoError.EOF⟩ label st).1 =
        some (GoError.wrapf
          (bytesOf "error reading " ++ label ++ bytesOf ": " ++ GoError.ErrTooLong.Error)
          GoError.ErrTooLong) ∧
      (processInput ⟨List.replicate n 97, GoError.EOF⟩ label st).2.stdout = st.stdout := by
  have hs := scanErr_replicate n GoError.EOF h
  unfold processInput
  rw [hs]
  exact ⟨rfl, rfl⟩

theorem countCRLF_append_newline (post : List Nat) :
    ∀ pre : List Nat, 10 ∉ pre →
      countCRLF (pre ++ 10 :: post) = endsCR pre + countCRLF post := by
  have base : countCRLF (10 :: post) = countCRLF post := by
    cases post with
    | nil => simp [countCRLF]
    | cons y ys => simp [countCRLF]
  intro pre
  induction pre with
  | nil => intro _; simp [base, endsCR]
  | cons x xs ih =>
    intro h
    simp only [List.mem_cons, not_or] at h
    cases xs with
    | nil =>
      simp only [List.cons_append, List.nil_append, countCRLF, base, endsCR,
        List.getLast?_singleton, Option.some.injEq]
      by_cases hx : x = 13 <;> simp [hx]
    | cons y ys =>
      have hy : ¬ y = 10 := by
        have := h.2
        simp only [List.mem_cons, not_or] at this
        exact fun e => this.1 e.symm
      have ih2 := ih h.2
      simp only [List.cons_append] at ih2 ⊢
      rw [countCRLF, ih2]
      simp [hy, endsCR, List.getLast?_cons_cons]

theorem countCRLF_no_newline : ∀ l : List Nat, 10 ∉ l → countCRLF l = 0 := by
  intro l
  induction l with
  | nil => intro _; rfl
  | cons x xs ih =>
    intro h
    simp only [List.mem_cons, not_or] at h
    cases xs with
    | nil => rfl
    | cons y ys =>
      have hy : ¬ y = 10 := by
        have := h.2
        simp only [List.mem_cons, not_or] at this
        exact fun e => this.1 e.symm
      rw [countCRLF, ih h.2]
      simp [hy]

theorem getLast?_append_cons_cons (pre : List Nat) (x y : Nat) (ys : List Nat) :
    (pre ++ x :: y :: ys).getLast? = (y :: ys).getLast? := by
  induction pre with
  | nil => simp [List.getLast?_cons_cons]
  | cons p ps ih =>
    cases ps with
    | nil => simp [List.getLast?_cons_cons]
    | cons q qs =>
      rw [List.cons_append, List.cons_append, List.getLast?_cons_cons, ← List.cons_append, ih]

theorem endsCR_append_newline (pre post : List Nat) :
    endsCR (pre ++ 10 :: post) = endsCR post := by
  unfold endsCR
  cases post with
  | nil => simp
  | cons y ys => rw [getLast?_append_cons_cons]

theorem records_count_cr (l : List Nat) :
    (records l).countP (fun rec => rec.getLast? == some 13) = countCRLF l + endsCR l := by
  induction l using records_cases_induction with
  | hno l h =>
    rw [records_no_newline l h, countCRLF_no_newline l h]
    by_cases hl : l = []
    · simp [hl, endsCR]
    · by_cases hc : l.getLast? = some 13 <;> simp [hl, endsCR, hc, List.countP_cons]
  | hstep pre post h ih =>
    rw [records_append pre post h, List.countP_cons, ih, countCRLF_append_newline post pre h,
      endsCR_append_newline]
    by_cases hc : pre.getLast? = some 13
    · simp only [endsCR, hc, beq_self_eq_true, if_true]
      omega
    · have hb : (pre.getLast? == some 13) = false := by simpa using hc
      simp only [endsCR, hc, hb, Bool.false_eq_true, if_false]
      omega

theorem dropCR_length (t : List Nat) :
    (bufio.dropCR t).length + (if t.getLast? = some 13 then 1 else 0) = t.length := by
  by_cases h : t.getLast? = some 13
  · rcases dropCR_cases t with h1 | h1
    · exfalso
      have h2 : bufio.dropCR t = t.dropLast := by
        unfold bufio.dropCR
        rw [List.getLast?_eq_getElem?] at h
        have hpos : 0 < t.length := by
          cases t with
          | nil => simp at h
          | cons x xs => simp
        simp [h, hpos, List.dropLast_eq_take]
      have h3 := congrArg List.length h1
      rw [h2, List.length_dropLast] at h3
      have hpos : 0 < t.length := by
        cases t with
        | nil => simp at h
        | cons x xs => simp
      omega
    · rw [if_pos h]
      conv_rhs => rw [h1]
      simp
  · rw [if_neg h, dropCR_of_ne t h]
    simp

theorem records_sum_dropCR (ts : List (List Nat)) :
    (ts.map (fun t => (bufio.dropCR t).length + 1)).sum +
        ts.countP (fun rec => rec.getLast? == some 13) =
      (ts.map (fun t => t.length + 1)).sum := by
  induction ts with
  | nil => simp
  | cons t ts ih =>
    have h := dropCR_length t
    simp only [List.map_cons, List.sum_cons, List.countP_cons]
    by_cases hc : t.getLast? = some 13
    · simp only [hc, if_true] at h
      simp only [hc, beq_self_eq_true, if_true]
      omega
    · simp only [hc, if_false] at h
      have hb : (t.getLast? == some 13) = false := by simpa using hc
      simp only [hb]
      simp only [Bool.false_eq_true, if_false]
      omega

theorem processInput_fileLog (r : Reader) (label : List Nat) (st : State) :
    (processInput r label st).2.fileLog = st.fileLog := by
  unfold processInput
  cases scanErr r with
  | none => exact (printReport_frame _ _ _).2.2
  | some err => rfl

theorem runDeferred_fileLog (deferred : List (List Nat)) :
    ∀ st : State, (runDeferred deferred st).fileLog =
      st.fileLog ++ deferred.map FileEvent.closed := by
  induction deferred with
  | nil => intro st; simp [runDeferred]
  | cons f fs ih => intro st; rw [runDeferred, ih]; simp

theorem runFiles_fileLog (env : Env) (st : State) :
    ∀ (args deferred : List (List Nat)) (st2 : State),
      (runFiles env args deferred st2).2.1.fileLog =
          st2.fileLog ++ (openedFiles env st args).map FileEvent.opened ∧
        (runFiles env args deferred st2).2.2 =
          (openedFiles env st args).reverse ++ deferred := by
  intro args
  induction args with
  | nil => intro deferred st2; simp [runFiles, openedFiles]
  | cons file files ih =>
    intro deferred st2
    cases hopen : env.openFile file with
    | error err => simp [runFiles, openedFiles, hopen]
    | ok f =>
      have hfst := processInput_fst f file st
        { st2 with fileLog := st2.fileLog ++ [FileEvent.opened file] }
      have hlog := processInput_fileLog f file
        { st2 with fileLog := st2.fileLog ++ [FileEvent.opened file] }
      cases hp : processInput f file
          { st2 with fileLog := st2.fileLog ++ [FileEvent.opened file] } with
      | mk res st3 =>
        rw [hp] at hfst hlog
        simp only at hfst hlog
        cases res with
        | some err =>
          have hsome : (processInput f file st).1.isSome = true := by rw [hfst]; rfl
          simp [runFiles, openedFiles, hopen, hp, hsome, hlog]
        | none =>
          have hnone : (processInput f file st).1.isSome = false := by rw [hfst]; rfl
          obtain ⟨i1, i2⟩ := ih (file :: deferred) st3
          simp [runFiles, openedFiles, hopen, hp, hnone, hlog, i1, i2]

theorem openCount_events (opens closes : List (List Nat)) :
    openCount (opens.map FileEvent.opened ++ closes.map FileEvent.closed) =
      opens.length - closes.length := by
  unfold openCount
  simp [List.countP_append, List.countP_map, Function.comp_def]

theorem count_events (opens closes : List (List Nat)) (file : List Nat) :
    (opens.map FileEvent.opened ++ closes.map FileEvent.closed).count
        (FileEvent.opened file) = opens.count file ∧
      (opens.map FileEvent.opened ++ closes.map FileEvent.closed).count
        (FileEvent.closed file) = closes.count file := by
  have h1 : ∀ l : List (List Nat),
      (l.map FileEvent.opened).count (FileEvent.opened file) = l.count file ∧
      (l.map FileEvent.opened).count (FileEvent.closed file) = 0 ∧
      (l.map FileEvent.closed).count (FileEvent.closed file) = l.count file ∧
      (l.map FileEvent.closed).count (FileEvent.opened file) = 0 := by
    intro l
    induction l with
    | nil => simp
    | cons x xs ih =>
      obtain ⟨i1, i2, i3, i4⟩ := ih
      simp only [List.map_cons, List.count_cons, i1, i2, i3, i4]
      by_cases hx : x = file <;> simp [hx]
  obtain ⟨a1, a2, _, _⟩ := h1 opens
  obtain ⟨_, _, b3, b4⟩ := h1 closes
  simp only [List.count_append, a1, a2, b3, b4]
  omega

/-! ### The word scanner on a text of any length -/

theorem DecodeRune_cont (b : Nat) (bs : List Nat) (h1 : 0x80 ≤ b) (h2 : b ≤ 0xBF) :
    utf8.DecodeRune (b :: bs) = (utf8.RuneError, 1) := by
  have hf : utf8.first b = 0xF1 := by
    obtain ⟨r0, r1, r2, r3, r4, r5, r6, r7, _⟩ := first_ranges b
    rcases first_cases b with hf | hf | hf | hf | hf | hf | hf | hf | hf
    all_goals first
      | exact hf
      | (have q := r0 hf; omega) | (have q := r1 hf; omega) | (have q := r2 hf; omega)
      | (have q := r3 hf; omega) | (have q := r4 hf; omega) | (have q := r5 hf; omega)
      | (have q := r6 hf; omega) | (have q := r7 hf; omega)
  simp [utf8.DecodeRune, hf]

theorem DecodeRune_append_any (a c : List Nat) (b : Nat) (ha : a ≠ []) :
    utf8.DecodeRune a = utf8.DecodeRune (a ++ b :: c) ∨
      (utf8.DecodeRune a = (utf8.RuneError, 1) ∧
        a.length < (utf8.DecodeRune (a ++ b :: c)).2) := by
  match a, ha with
  | [a0], _ =>
    simp only [List.cons_append, List.nil_append, utf8.DecodeRune]
    rcases first_cases a0 with hf | hf | hf | hf | hf | hf | hf | hf | hf <;>
      simp [hf, utf8.acceptRanges] <;> split_ifs <;> first | omega | simp
  | [a0, a1], _ =>
    simp only [List.cons_append, List.nil_append, utf8.DecodeRune]
    rcases first_cases a0 with hf | hf | hf | hf | hf | hf | hf | hf | hf <;>
      simp [hf, utf8.acceptRanges] <;> split_ifs <;> first | omega | simp
  | [a0, a1, a2], _ =>
    simp only [List.cons_append, List.nil_append, utf8.DecodeRune]
    rcases first_cases a0 with hf | hf | hf | hf | hf | hf | hf | hf | hf <;>
      simp [hf, utf8.acceptRanges] <;> split_ifs <;> first | omega | simp
  | a0 :: a1 :: a2 :: a3 :: as, _ =>
    left
    simp only [List.cons_append, utf8.DecodeRune]
    rcases first_cases a0 with hf | hf | hf | hf | hf | hf | hf | hf | hf <;>
      simp [hf, utf8.acceptRanges] <;> split_ifs <;> first | rfl | omega

theorem DecodeRune_take (p : List Nat) (n : Nat) (hn : 1 ≤ n) :
    utf8.DecodeRune (p.take n) = utf8.DecodeRune p ∨
      (utf8.DecodeRune (p.take n) = (utf8.RuneError, 1) ∧ n < (utf8.DecodeRune p).2) := by
  by_cases hlen : p.length ≤ n
  · left
    rw [List.take_of_length_le hlen]
  · have hlt : n < p.length := by omega
    have hsplit : p = p.take n ++ p.get ⟨n, hlt⟩ :: p.drop (n + 1) := by
      conv_lhs => rw [← List.take_append_drop n p]
      rw [List.drop_eq_getElem_cons hlt]
      rfl
    have hne : p.take n ≠ [] := by
      intro h0
      have := congrArg List.length h0
      simp only [List.length_take, List.length_nil] at this
      omega
    have hlen2 : (p.take n).length = n := by
      simp only [List.length_take]; omega
    rcases DecodeRune_append_any (p.take n) (p.drop (n + 1)) (p.get ⟨n, hlt⟩) hne with h | h
    · left
      rw [h, ← hsplit]
    · right
      rw [← hsplit, hlen2] at h
      exact h

theorem DecodeRune_tail (p : List Nat) :
    ∀ b ∈ (p.take (utf8.DecodeRune p).2).drop 1, 0x80 ≤ b ∧ b ≤ 0xBF := by
  match p with
  | [] => simp [utf8.DecodeRune]
  | [a0] =>
    simp only [utf8.DecodeRune]
    rcases first_cases a0 with hf | hf | hf | hf | hf | hf | hf | hf | hf <;>
      simp [hf, utf8.acceptRanges]
  | [a0, a1] =>
    simp only [utf8.DecodeRune]
    rcases first_cases a0 with hf | hf | hf | hf | hf | hf | hf | hf | hf <;>
      first
        | (simp [hf, utf8.acceptRanges]; done)
        | (simp [hf, utf8.acceptRanges]; split_ifs <;> simp; omega)
  | [a0, a1, a2] =>
    simp only [utf8.DecodeRune]
    rcases first_cases a0 with hf | hf | hf | hf | hf | hf | hf | hf | hf <;>
      simp [hf, utf8.acceptRanges] <;> split_ifs <;> simp <;> omega
  | a0 :: a1 :: a2 :: a3 :: as =>
    simp only [utf8.DecodeRune]
    rcases first_cases a0 with hf | hf | hf | hf | hf | hf | hf | hf | hf <;>
      simp [hf, utf8.acceptRanges] <;> split_ifs <;> simp <;> omega

theorem isSpace_RuneError : bufio.isSpace utf8.RuneError = false := by decide

theorem window_space (p : List Nat) (n : Nat) (hn : 1 ≤ n)
    (hsp : bufio.isSpace (utf8.DecodeRune (p.take n)).1 = true) :
    utf8.DecodeRune (p.take n) = utf8.DecodeRune p := by
  rcases DecodeRune_take p n hn with h | h
  · exact h
  · rw [h.1] at hsp
    simp [isSpace_RuneError] at hsp

theorem drop_ne_nil_of_lt (l : List Nat) (i : Nat) (h : i < l.length) : l.drop i ≠ [] := by
  intro h0
  have := congrArg List.length h0
  simp only [List.length_drop, List.length_nil] at this
  omega

/-- Leading spaces skipped in a window of the text are spaces of the text. -/
theorem skipSpaces_window (p : List Nat) (m : Nat) :
    ∀ (fuel start : Nat),
      countRuns bufio.isSpace false (toRunes (p.drop start)) =
        countRuns bufio.isSpace false
          (toRunes (p.drop (bufio.skipSpaces (p.take m) fuel start))) := by
  intro fuel
  induction fuel with
  | zero => intro start; rfl
  | succ fuel ih =>
    intro start
    by_cases hlt : start < (p.take m).length
    · by_cases hsp : bufio.isSpace (utf8.DecodeRune ((p.take m).drop start)).1 = true
      · have hk : bufio.skipSpaces (p.take m) (fuel + 1) start =
            bufio.skipSpaces (p.take m) fuel
              (start + (utf8.DecodeRune ((p.take m).drop start)).2) := by
          simp only [bufio.skipSpaces, hlt, if_true, hsp, Bool.not_true, Bool.false_eq_true,
            if_false]
        have hlen : start < m ∧ start < p.length := by
          simp only [List.length_take] at hlt; omega
        have hq : utf8.DecodeRune ((p.take m).drop start) = utf8.DecodeRune (p.drop start) := by
          rw [List.drop_take] at hsp ⊢
          exact window_space (p.drop start) (m - start) (by omega) hsp
        have hne := drop_ne_nil_of_lt p start hlen.2
        rw [hk, ← ih, hq]
        rw [hq] at hsp
        rw [toRunes_step _ hne, List.drop_drop]
        simp [countRuns, hsp]
      · have hsp2 : bufio.isSpace (utf8.DecodeRune ((p.take m).drop start)).1 = false := by
          simpa using hsp
        have hk : bufio.skipSpaces (p.take m) (fuel + 1) start = start := by
          simp only [bufio.skipSpaces, hlt, if_true, hsp2, Bool.not_false]
        rw [hk]
    · have hk : bufio.skipSpaces (p.take m) (fuel + 1) start = start := by
        simp only [bufio.skipSpaces, hlt, if_false]
      rw [hk]

theorem findSpace_conts (data : List Nat) :
    ∀ (fuel i : Nat), (∀ b ∈ data.drop i, 0x80 ≤ b ∧ b ≤ 0xBF) →
      bufio.findSpace data fuel i = none := by
  intro fuel
  induction fuel with
  | zero => intro i _; rfl
  | succ fuel ih =>
    intro i h
    by_cases hlt : i < data.length
    · have hd : data.drop i = data[i] :: data.drop (i + 1) := List.drop_eq_getElem_cons hlt
      have hb := h data[i] (by rw [hd]; exact List.mem_cons_self _ _)
      have hdec : utf8.DecodeRune (data.drop i) = (utf8.RuneError, 1) := by
        rw [hd]; exact DecodeRune_cont _ _ hb.1 hb.2
      have hnext := ih (i + 1) (fun b hb2 => h b (by rw [hd]; exact List.mem_cons_of_mem _ hb2))
      simp only [bufio.findSpace, hlt, if_true, hdec, isSpace_RuneError, Bool.false_eq_true,
        if_false, hnext]
    · simp only [bufio.findSpace, hlt, if_false]

/-- A space found in a window of the text: the runes between the start and
the space are runes of the text. -/
theorem findSpace_window (p : List Nat) (m : Nat) :
    ∀ (fuel i : Nat),
      match bufio.findSpace (p.take m) fuel i with
      | some (j, w) =>
        countRuns bufio.isSpace true (toRunes (p.drop i)) =
            countRuns bufio.isSpace false (toRunes (p.drop (j + w))) ∧
          (bufio.isSpace (utf8.DecodeRune ((p.take m).drop i)).1 = false →
            bufio.isSpace (utf8.DecodeRune (p.drop i)).1 = false)
      | none => True := by
  intro fuel
  induction fuel with
  | zero => intro i; simp [bufio.findSpace]
  | succ fuel ih =>
    intro i
    by_cases hlt : i < (p.take m).length
    · have hlen : i < m ∧ i < p.length := by
        simp only [List.length_take] at hlt; omega
      have hne := drop_ne_nil_of_lt p i hlen.2
      by_cases hsp : bufio.isSpace (utf8.DecodeRune ((p.take m).drop i)).1 = true
      · have hk : bufio.findSpace (p.take m) (fuel + 1) i =
            some (i, (utf8.DecodeRune ((p.take m).drop i)).2) := by
          simp only [bufio.findSpace, hlt, if_true, hsp]
        have hq : utf8.DecodeRune ((p.take m).drop i) = utf8.DecodeRune (p.drop i) := by
          rw [List.drop_take] at hsp ⊢
          exact window_space (p.drop i) (m - i) (by omega) hsp
        rw [hk]
        simp only
        constructor
        · rw [hq] at hsp ⊢
          rw [toRunes_step _ hne, List.drop_drop]
          simp [countRuns, hsp]
        · intro hns
          rw [hns] at hsp
          exact absurd hsp (by simp)
      · have hsp2 : bufio.isSpace (utf8.DecodeRune ((p.take m).drop i)).1 = false := by
          simpa using hsp
        have hk : bufio.findSpace (p.take m) (fuel + 1) i =
            bufio.findSpace (p.take m) fuel (i + (utf8.DecodeRune ((p.take m).drop i)).2) := by
          simp only [bufio.findSpace, hlt, if_true, hsp2, Bool.false_eq_true, if_false]
        rw [hk]
        have hdt : (p.take m).drop i = (p.drop i).take (m - i) := List.drop_take m i p
        rcases DecodeRune_take (p.drop i) (m - i) (by omega) with hq | hq
        · -- the rune at `i` lies within the window
          rw [← hdt] at hq
          have hi := ih (i + (utf8.DecodeRune ((p.take m).drop i)).2)
          cases hf : bufio.findSpace (p.take m) fuel
              (i + (utf8.DecodeRune ((p.take m).drop i)).2) with
          | none => trivial
          | some jw =>
            obtain ⟨j, w⟩ := jw
            rw [hf] at hi
            simp only at hi ⊢
            constructor
            · rw [← hi.1, toRunes_step _ hne, List.drop_drop, ← hq]
              simp [countRuns, hsp]
            · intro _
              rw [← hq]
              simpa using hsp
        · -- the rune at `i` is cut by the end of the window
          rw [← hdt] at hq
          have hconts : ∀ b ∈ (p.take m).drop (i + 1), 0x80 ≤ b ∧ b ≤ 0xBF := by
            intro b hb
            apply DecodeRune_tail (p.drop i) b
            have h1 : (p.take m).drop (i + 1) = ((p.drop i).take (m - i)).drop 1 := by
              rw [← hdt, List.drop_drop]
            rw [h1, List.drop_take] at hb
            rw [List.drop_take]
            exact List.take_subset_take_left _ (by omega) hb
          have hnone := findSpace_conts (p.take m) fuel (i + 1) hconts
          rw [hq.1]
          simp only
          rw [hnone]
          trivial
    · have hk : bufio.findSpace (p.take m) (fuel + 1) i = none := by
        simp only [bufio.findSpace, hlt, if_false]
      rw [hk]
      trivial

theorem findSpace_none_no_newline (data : List Nat) :
    ∀ (fuel i : Nat), data.length - i ≤ fuel → bufio.findSpace data fuel i = none →
      ∀ b ∈ data.drop i, b ≠ 10 := by
  intro fuel
  induction fuel with
  | zero =>
    intro i h _ b hb
    rw [List.drop_eq_nil_of_le (by omega)] at hb
    simp at hb
  | succ fuel ih =>
    intro i h hnone b hb
    by_cases hlt : i < data.length
    · have hd : data.drop i = data[i] :: data.drop (i + 1) := List.drop_eq_getElem_cons hlt
      have hne := drop_ne_nil_of_lt data i hlt
      have hw := DecodeRune_width (data.drop i) hne
      by_cases hsp : bufio.isSpace (utf8.DecodeRune (data.drop i)).1 = true
      · simp only [bufio.findSpace, hlt, if_true, hsp] at hnone
        exact absurd hnone (by simp)
      · have hsp2 : bufio.isSpace (utf8.DecodeRune (data.drop i)).1 = false := by
          simpa using hsp
        simp only [bufio.findSpace, hlt, if_true, hsp2, Bool.false_eq_true, if_false] at hnone
        have hrest := ih (i + (utf8.DecodeRune (data.drop i)).2)
          (by simp only [List.length_drop] at hw; omega) hnone
        -- the bytes of the rune at `i`, then the bytes after it
        have hsplit : data.drop i =
            (data.drop i).take (utf8.DecodeRune (data.drop i)).2 ++
              data.drop (i + (utf8.DecodeRune (data.drop i)).2) := by
          rw [← List.drop_drop, List.take_append_drop]
        rw [hsplit] at hb
        rcases List.mem_append.mp hb with h1 | h1
        · have hhead : ∀ (l : List Nat) (x : Nat) (rest : List Nat) (w : Nat), l = x :: rest →
              l.take (w + 1) = x :: (l.take (w + 1)).drop 1 := by
            intro l x rest w hl
            subst hl
            rfl
          obtain ⟨w, hw2⟩ : ∃ w, (utf8.DecodeRune (data.drop i)).2 = w + 1 :=
            ⟨(utf8.DecodeRune (data.drop i)).2 - 1, by omega⟩
          have htail := DecodeRune_tail (data.drop i) b
          rw [hw2] at h1 htail
          rw [hhead _ _ _ w hd] at h1
          rcases List.mem_cons.mp h1 with h2 | h2
          · intro h10
            rw [h2] at h10
            rw [hd, h10, DecodeRune_ascii 10 _ (by norm_num)] at hsp2
            exact absurd hsp2 (by decide)
          · have := htail h2
            omega
        · exact hrest b h1
    · rw [List.drop_eq_nil_of_le (by omega)] at hb
      simp at hb

theorem windows_have_newline (max : Nat) (hmax : 0 < max) :
    ∀ l : List Nat, (∀ rec ∈ records l, rec.length < max) →
      ∀ k, k + max ≤ l.length → 10 ∈ (l.drop k).take max := by
  intro l
  induction l using records_cases_induction with
  | hno l h =>
    intro hfit k hk
    have hne : l ≠ [] := by
      intro h0; subst h0; simp at hk; omega
    have hrec := records_no_newline l h
    rw [if_neg hne] at hrec
    have := hfit l (by rw [hrec]; simp)
    omega
  | hstep pre post h ih =>
    intro hfit k hk
    rw [records_append pre post h] at hfit
    have hpre : pre.length < max := hfit pre (by simp)
    have hpost := ih (fun rec hr => hfit rec (List.mem_cons_of_mem _ hr))
    simp only [List.length_append, List.length_cons] at hk
    by_cases hkp : k ≤ pre.length
    · rw [List.drop_append_of_le_length hkp]
      have h1 : (pre.drop k ++ 10 :: post).take ((pre.drop k).length + 1) =
          pre.drop k ++ [10] := by
        rw [List.take_append]; simp
      have h2 : (10 : Nat) ∈ (pre.drop k ++ 10 :: post).take ((pre.drop k).length + 1) := by
        rw [h1]; simp
      exact List.take_subset_take_left _
        (by simp only [List.length_drop]; omega) h2
    · obtain ⟨k2, hk2⟩ : ∃ k2, k = pre.length + (k2 + 1) := ⟨k - pre.length - 1, by omega⟩
      rw [hk2, List.drop_append]
      simp only [List.drop_succ_cons]
      exact hpost k2 (by omega)

/-- The word scanner on a text of any length in which every `max` consecutive
bytes hold a newline: it never gives up, and yields as many tokens as the
runes of the text have maximal runs without white space. -/
theorem scanWords_length_all (max : Nat) (e : GoError) (hmax : 0 < max) :
    ∀ (fuel : Nat) (rest : List Nat), rest.length < fuel →
      (∀ k, k + max ≤ rest.length → 10 ∈ (rest.drop k).take max) →
      (bufio.scanAll bufio.ScanWords max e fuel rest).1.length =
        countRuns bufio.isSpace false (toRunes rest) := by
  intro fuel
  induction fuel with
  | zero => intro rest h; omega
  | succ fuel ih =>
    intro rest hlen hwin
    by_cases hlt : rest.length < max
    · exact scanWords_length max e (fuel + 1) rest hlen hlt
    · have hqlen : (rest.take max).length = max := by
        simp only [List.length_take]; omega
      have hdrop : ∀ d, 0 < d → (rest.drop d).length < fuel ∧
          (∀ k, k + max ≤ (rest.drop d).length → 10 ∈ ((rest.drop d).drop k).take max) := by
        intro d hd
        refine ⟨by simp only [List.length_drop]; omega, ?_⟩
        intro k hk
        rw [List.drop_drop]
        simp only [List.length_drop] at hk
        exact hwin (d + k) (by omega)
      obtain ⟨s1, s2, -, s4⟩ := skipSpaces_spec (rest.take max) (rest.take max).length 0
        (by omega)
      have s2 := s2 (Nat.zero_le _)
      have s3 := skipSpaces_window rest max (rest.take max).length 0
      simp only [List.drop_zero] at s3
      have hfs := findSpace_spec (rest.take max) (rest.take max).length
        (bufio.skipSpaces (rest.take max) (rest.take max).length 0) (by omega)
      have hfw := findSpace_window rest max (rest.take max).length
        (bufio.skipSpaces (rest.take max) (rest.take max).length 0)
      cases hf : bufio.findSpace (rest.take max) (rest.take max).length
          (bufio.skipSpaces (rest.take max) (rest.take max).length 0) with
      | some jw =>
        obtain ⟨j, w⟩ := jw
        rw [hf] at hfs hfw
        obtain ⟨f1, f2, f3, f4, -⟩ := hfs
        obtain ⟨w1, w2⟩ := hfw
        have hS : bufio.ScanWords (rest.take max) false =
            (j + w, some (((rest.take max).take j).drop
              (bufio.skipSpaces (rest.take max) (rest.take max).length 0))) := by
          simp only [bufio.ScanWords, hf]
        obtain ⟨d1, d2⟩ := hdrop (j + w) (by omega)
        have hnext := ih (rest.drop (j + w)) d1 d2
        simp only [bufio.scanAll, hlt, if_false, hS, List.length_cons, hnext]
        have hstart := countRuns_start rest
          (bufio.skipSpaces (rest.take max) (rest.take max).length 0) (by omega)
          (w2 (s4 (by omega)))
        rw [s3, hstart, w1]
        omega
      | none =>
        have hS : bufio.ScanWords (rest.take max) false =
            (bufio.skipSpaces (rest.take max) (rest.take max).length 0, none) := by
          simp only [bufio.ScanWords, hf, Bool.false_and, Bool.false_eq_true, if_false]
        by_cases hz : bufio.skipSpaces (rest.take max) (rest.take max).length 0 = 0
        · exfalso
          rw [hz] at hf
          have hno := findSpace_none_no_newline (rest.take max) (rest.take max).length 0
            (by omega) hf
          have hmem := hwin 0 (by omega)
          simp only [List.drop_zero] at hno hmem
          exact hno 10 hmem rfl
        · obtain ⟨d, hd⟩ : ∃ d, bufio.skipSpaces (rest.take max) (rest.take max).length 0
              = d + 1 := ⟨_, (Nat.succ_pred_eq_of_ne_zero hz).symm⟩
          rw [hd] at hS s3
          obtain ⟨d1, d2⟩ := hdrop (d + 1) (by omega)
          have hnext := ih (rest.drop (d + 1)) d1 d2
          simp only [bufio.scanAll, hlt, if_false, hS, hnext]
          rw [s3]

theorem splitWords_length_all (s : List Nat)
    (hfit : ∀ rec ∈ records s, rec.length < bufio.MaxScanTokenSize) :
    (splitWords s).length = countRuns bufio.isSpace false (toRunes s) := by
  unfold splitWords bufio.Scanner.run strings.NewReader
  exact scanWords_length_all _ _ (by decide) _ _ (Nat.lt_succ_self _)
    (windows_have_newline _ (by decide) s hfit)

theorem words_eq_runs (r : Reader) (hs : scanErr r = none) :
    (countInput r).words = countRuns bufio.isSpace false (toRunes r.data) := by
  obtain ⟨hfit, _, _⟩ := scanErr_none r hs
  rw [countInput_of_ok r hs, ← records_sum_runs r.data]
  simp only
  apply congrArg
  apply List.map_congr_left
  intro t ht
  exact splitWords_length _ (Nat.lt_of_le_of_lt (dropCR_length_le t) (hfit t ht))

/-! ## Part 3. The claims -/

/-- C1: for every input on which processInput succeeds, the lines count is the
number of newline bytes of the input, plus one when the input is not empty and
its last byte is no newline. -/
theorem C1_lines_count (r : Reader) (label : List Nat) (st : State)
    (h : (processInput r label st).1 = none) :
    (countInput r).lines =
      r.data.count 10 + (if r.data ≠ [] ∧ r.data.getLast? ≠ some 10 then 1 else 0) := by
  have hs := (processInput_ok_iff r label st).mp h
  rw [countInput_of_ok r hs]
  exact records_length r.data

/-- Instance of C1 at the input "one\ntwo" read from a regular stream. -/
theorem C1_lines_count_witness :
    (processInput ⟨bytesOf "one\ntwo", GoError.EOF⟩ (bytesOf "f") State.start).1 = none ∧
      (countInput ⟨bytesOf "one\ntwo", GoError.EOF⟩).lines = 2 :=
  ⟨by decide, C1_lines_count ⟨bytesOf "one\ntwo", GoError.EOF⟩ (bytesOf "f") State.start
    (by decide)⟩

/-- C2, as stated, fails: "a", U+00A0 (no-break space), "b" is one run of
characters that are no ASCII white space, and processInput counts 2 words. -/
theorem C2_words_counterexample :
    (processInput ⟨[0x61, 0xC2, 0xA0, 0x62], GoError.EOF⟩ (bytesOf "f") State.start).1 = none ∧
      [0x61, 0xC2, 0xA0, 0x62] = utf8.encode [0x61, 0xA0, 0x62] ∧
      (countInput ⟨[0x61, 0xC2, 0xA0, 0x62], GoError.EOF⟩).words = 2 ∧
      countRuns isAsciiSpace false [0x61, 0xC2, 0xA0, 0x62] = 1 ∧
      countRuns isAsciiSpace false (toRunes [0x61, 0xC2, 0xA0, 0x62]) = 1 ∧
      (countInput ⟨[0x61, 0xC2, 0xA0, 0x62], GoError.EOF⟩).words ≠
        countRuns isAsciiSpace false (toRunes [0x61, 0xC2, 0xA0, 0x62]) := by
  decide

/-- C2, amended: for every input on which processInput succeeds, the words
count is the number of maximal runs of characters that are no white space,
where the characters are the runes of the input decoded as UTF-8 (an invalid
byte is one character that is no white space) and white space is what
`bufio.isSpace` accepts: the six ASCII ones and U+0085, U+00A0, U+1680,
U+2000 to U+200A, U+2028, U+2029, U+202F, U+205F, U+3000. -/
theorem C2_words_count (r : Reader) (label : List Nat) (st : State)
    (h : (processInput r label st).1 = none) :
    (countInput r).words = countRuns bufio.isSpace false (toRunes r.data) := by
  have hs := (processInput_ok_iff r label st).mp h
  obtain ⟨hfit, _, _⟩ := scanErr_none r hs
  rw [countInput_of_ok r hs, ← records_sum_runs r.data]
  simp only
  apply congrArg
  apply List.map_congr_left
  intro t ht
  exact splitWords_length _ (Nat.lt_of_le_of_lt (dropCR_length_le t) (hfit t ht))

/-- Instance of the amended C2 at "a", U+00A0, "b". -/
theorem C2_words_count_witness :
    (processInput ⟨[0x61, 0xC2, 0xA0, 0x62], GoError.EOF⟩ (bytesOf "f") State.start).1 = none ∧
      (countInput ⟨[0x61, 0xC2, 0xA0, 0x62], GoError.EOF⟩).words =
        countRuns bufio.isSpace false (toRunes [0x61, 0xC2, 0xA0, 0x62]) :=
  ⟨by decide, C2_words_count ⟨[0x61, 0xC2, 0xA0, 0x62], GoError.EOF⟩ (bytesOf "f") State.start
    (by decide)⟩

/-- C3, as stated, fails: on the three bytes "a\r\n" processInput succeeds and
counts 2 bytes, where the sum over the records of (length + 1) and the length
of the input are both 3. -/
theorem C3_bytes_counterexample :
    (processInput ⟨[97, 13, 10], GoError.EOF⟩ (bytesOf "f") State.start).1 = none ∧
      (countInput ⟨[97, 13, 10], GoError.EOF⟩).bytes = 2 ∧
      ((records [97, 13, 10]).map (fun rec => rec.length + 1)).sum = 3 ∧
      ¬ ((countInput ⟨[97, 13, 10], GoError.EOF⟩).bytes =
          ((records [97, 13, 10]).map (fun rec => rec.length + 1)).sum ∧
        (countInput ⟨[97, 13, 10], GoError.EOF⟩).bytes =
          (if [97, 13, 10] = [] ∨ [97, 13, 10].getLast? = some 10 then [97, 13, 10].length
           else [97, 13, 10].length + 1)) := by
  decide

/-- C3, amended: for every input on which processInput succeeds and in which
no record ends with a carriage return, the bytes count is the sum over the
records of (record length + 1), which is the length of the input when the
input is empty or ends with a newline and the length plus one otherwise. -/
theorem C3_bytes_count (r : Reader) (label : List Nat) (st : State)
    (h : (processInput r label st).1 = none)
    (hcr : ∀ rec ∈ records r.data, rec.getLast? ≠ some 13) :
    (countInput r).bytes = ((records r.data).map (fun rec => rec.length + 1)).sum ∧
      (countInput r).bytes =
        (if r.data = [] ∨ r.data.getLast? = some 10 then r.data.length
         else r.data.length + 1) := by
  have hs := (processInput_ok_iff r label st).mp h
  have hb : (countInput r).bytes = ((records r.data).map (fun rec => rec.length + 1)).sum := by
    rw [countInput_of_ok r hs]
    simp only
    apply congrArg
    apply List.map_congr_left
    intro rec hrec
    rw [dropCR_of_ne rec (hcr rec hrec)]
  refine ⟨hb, ?_⟩
  rw [hb, records_sum_length]
  unfold fragment
  by_cases h1 : r.data = []
  · simp [h1]
  · by_cases h2 : r.data.getLast? = some 10
    · simp [h1, h2]
    · simp [h1, h2]

/-- Instance of the amended C3 at the input "hello world". -/
theorem C3_bytes_count_witness :
    (processInput ⟨bytesOf "hello world", GoError.EOF⟩ (bytesOf "f") State.start).1 = none ∧
      (∀ rec ∈ records (bytesOf "hello world"), rec.getLast? ≠ some 13) ∧
      (countInput ⟨bytesOf "hello world", GoError.EOF⟩).bytes = 12 :=
  ⟨by decide, by decide,
    (C3_bytes_count ⟨bytesOf "hello world", GoError.EOF⟩ (bytesOf "f") State.start
      (by decide) (by decide)).2⟩

/-- C4: for every input that is valid UTF-8 (the encoding of a sequence of
Unicode scalar values), holds no carriage return and on which processInput
succeeds, the chars count is the number of code points less the number of
newlines; and on "héllo 世界\n" with only the chars flag set processInput
prints the count 8 (the text has 13 bytes before the newline). -/
theorem C4_chars_count (cps : List Nat) (e : GoError) (label : List Nat) (st : State)
    (hvalid : ∀ c ∈ cps, utf8.isScalar c = true)
    (hcr : 13 ∉ cps)
    (h : (processInput ⟨utf8.encode cps, e⟩ label st).1 = none) :
    (countInput ⟨utf8.encode cps, e⟩).chars = cps.length - cps.count 10 ∧
      (countInput ⟨utf8.encode cps, e⟩).chars + cps.count 10 = cps.length ∧
      (processInput ⟨bytesOf "héllo 世界\n", GoError.EOF⟩ (bytesOf "f")
          { State.start with showChars := true }).2.stdout = bytesOf "       8 f\n" ∧
      (bytesOf "héllo 世界").length = 13 := by
  suffices hsuff : (countInput ⟨utf8.encode cps, e⟩).chars + cps.count 10 = cps.length from
    ⟨by omega, hsuff, by decide, by decide⟩
  have hs := (processInput_ok_iff _ label st).mp h
  rw [countInput_of_ok _ hs]
  simp only
  have hcr2 : 13 ∉ utf8.encode cps := by
    intro hm
    have h1 : 0 < (utf8.encode cps).count 13 := List.count_pos_iff.mpr hm
    rw [count_encode cps 13 (by norm_num)] at h1
    exact hcr (List.count_pos_iff.mp h1)
  have hdrop : ∀ t ∈ records (utf8.encode cps), bufio.dropCR t = t := by
    intro t ht
    apply dropCR_of_ne
    intro hl
    exact hcr2 (records_mem _ t ht 13 (List.mem_of_getLast?_eq_some hl))
  have hsum : ((records (utf8.encode cps)).map
        (fun t => (toRunes (bufio.dropCR t)).length)).sum =
      ((records (utf8.encode cps)).map (fun t => (toRunes t).length)).sum := by
    apply congrArg
    apply List.map_congr_left
    intro t ht
    rw [hdrop t ht]
  have hr := records_sum_runes (utf8.encode cps)
  rw [toRunes_encode cps hvalid, count_encode cps 10 (by norm_num)] at hr
  rw [hsum]
  omega

/-- Instance of C4 at the code points of "héllo 世界" and a newline. -/
theorem C4_chars_count_witness :
    (∀ c ∈ [0x68, 0xE9, 0x6C, 0x6C, 0x6F, 0x20, 0x4E16, 0x754C, 0x0A], utf8.isScalar c = true) ∧
      13 ∉ [0x68, 0xE9, 0x6C, 0x6C, 0x6F, 0x20, 0x4E16, 0x754C, 0x0A] ∧
      (processInput ⟨utf8.encode [0x68, 0xE9, 0x6C, 0x6C, 0x6F, 0x20, 0x4E16, 0x754C, 0x0A],
          GoError.EOF⟩ (bytesOf "f") State.start).1 = none ∧
      (countInput ⟨utf8.encode [0x68, 0xE9, 0x6C, 0x6C, 0x6F, 0x20, 0x4E16, 0x754C, 0x0A],
          GoError.EOF⟩).chars = 8 :=
  ⟨by decide, by decide, by decide,
    (C4_chars_count [0x68, 0xE9, 0x6C, 0x6C, 0x6F, 0x20, 0x4E16, 0x754C, 0x0A] GoError.EOF
      (bytesOf "f") State.start (by decide) (by decide) (by decide)).1⟩

/-- C5: for every input of ASCII bytes only on which processInput succeeds,
the chars count is the bytes count less one terminator per record, that is
chars = bytes - lines. -/
theorem C5_ascii_chars (r : Reader) (label : List Nat) (st : State)
    (hascii : ∀ b ∈ r.data, b < 128)
    (h : (processInput r label st).1 = none) :
    (countInput r).chars = (countInput r).bytes - (countInput r).lines ∧
      (countInput r).chars + (countInput r).lines = (countInput r).bytes := by
  have hs := (processInput_ok_iff r label st).mp h
  rw [countInput_of_ok r hs]
  simp only
  have key : ∀ (ts : List (List Nat)), (∀ t ∈ ts, ∀ b ∈ t, b < 128) →
      (ts.map (fun t => (bufio.dropCR t).length + 1)).sum =
        (ts.map (fun t => (toRunes (bufio.dropCR t)).length)).sum + ts.length := by
    intro ts
    induction ts with
    | nil => simp
    | cons t ts ih =>
      intro hts
      have ht : toRunes (bufio.dropCR t) = bufio.dropCR t :=
        toRunes_ascii _ (fun b hb => hts t (by simp) b (dropCR_mem t b hb))
      simp only [List.map_cons, List.sum_cons, List.length_cons, ht]
      rw [ih (fun t2 h2 => hts t2 (List.mem_cons_of_mem _ h2))]
      omega
  rw [key (records r.data) (fun t ht b hb => hascii b (records_mem r.data t ht b hb))]
  constructor <;> omega

/-- Instance of C5 at the input "hello world\n". -/
theorem C5_ascii_chars_witness :
    (∀ b ∈ bytesOf "hello world\n", b < 128) ∧
      (processInput ⟨bytesOf "hello world\n", GoError.EOF⟩ (bytesOf "f") State.start).1 = none ∧
      (countInput ⟨bytesOf "hello world\n", GoError.EOF⟩).chars =
        (countInput ⟨bytesOf "hello world\n", GoError.EOF⟩).bytes -
          (countInput ⟨bytesOf "hello world\n", GoError.EOF⟩).lines :=
  ⟨by decide, by decide,
    (C5_ascii_chars ⟨bytesOf "hello world\n", GoError.EOF⟩ (bytesOf "f") State.start
      (by decide) (by decide)).1⟩

/-- C6: for every state of the four flags, every tuple of counts and every
label, the text printed is the concatenation, over the selected categories in
the order lines, words, bytes, chars, of the decimal count right-justified with
spaces to width 8 and followed by one space, then the label and a newline;
with no flag set the categories are lines, words, bytes.  A successful
processInput prints this text for the counts of its input. -/
theorem C6_report_format (c : Counts) (label : List Nat) (st : State) (r : Reader) :
    (printReport c label st).stdout =
        st.stdout ++ reportText
          (if st.showLines || st.showWords || st.showBytes || st.showChars then
            selected st.showLines st.showWords st.showBytes st.showChars c
           else [c.lines, c.words, c.bytes]) label ∧
      (processInput r label st).2.stdout =
        st.stdout ++
          (if (processInput r label st).1 = none then
            reportText
              (if st.showLines || st.showWords || st.showBytes || st.showChars then
                selected st.showLines st.showWords st.showBytes st.showChars (countInput r)
               else [(countInput r).lines, (countInput r).words, (countInput r).bytes]) label
           else []) := by
  have hshown : ∀ c2 : Counts, shownCounts st c2 =
      (if st.showLines || st.showWords || st.showBytes || st.showChars then
        selected st.showLines st.showWords st.showBytes st.showChars c2
       else [c2.lines, c2.words, c2.bytes]) := by
    intro c2
    unfold shownCounts selected
    cases h1 : st.showLines <;> cases h2 : st.showWords <;> cases h3 : st.showBytes <;>
      cases h4 : st.showChars <;> simp
  constructor
  · rw [printReport_stdout, hshown]
  · unfold processInput
    cases h : scanErr r with
    | none => simp only [if_true]; rw [printReport_stdout, hshown]
    | some err => simp

/-- C7: for every non-empty input whose last byte is no newline, every flag
state, every label and every ending of the stream, processInput on the input
and on the input followed by one newline compute the same counts, return the
same result and leave the same state (so print the same report, or both
fail); "hello world" and "hello world\n" both give 1 line, 2 words and 12
bytes and print the same line. -/
theorem C7_trailing_newline (s label : List Nat) (e : GoError) (st : State)
    (hne : s ≠ []) (hlast : s.getLast? ≠ some 10) :
    countInput ⟨s ++ [10], e⟩ = countInput ⟨s, e⟩ ∧
      processInput ⟨s ++ [10], e⟩ label st = processInput ⟨s, e⟩ label st ∧
      countInput ⟨bytesOf "hello world", GoError.EOF⟩ = ⟨1, 2, 11, 12⟩ ∧
      countInput ⟨bytesOf "hello world\n", GoError.EOF⟩ = ⟨1, 2, 11, 12⟩ ∧
      printedBy ⟨bytesOf "hello world", GoError.EOF⟩ (bytesOf "f") State.start =
        bytesOf "       1        2       12 f\n" ∧
      printedBy ⟨bytesOf "hello world\n", GoError.EOF⟩ (bytesOf "f") State.start =
        bytesOf "       1        2       12 f\n" := by
  have hrun : bufio.Scanner.run bufio.ScanLines ⟨s ++ [10], e⟩ =
      bufio.Scanner.run bufio.ScanLines ⟨s, e⟩ := by
    rw [run_lines_eq, run_lines_eq]
    simp only [records_concat_newline s hne hlast]
  have hc : countInput ⟨s ++ [10], e⟩ = countInput ⟨s, e⟩ := by
    unfold countInput; rw [hrun]
  have he : scanErr ⟨s ++ [10], e⟩ = scanErr ⟨s, e⟩ := by
    unfold scanErr; rw [hrun]
  refine ⟨hc, ?_, by decide, by decide, by decide, by decide⟩
  unfold processInput
  rw [hc, he]

/-- Instance of C7 at the input "a\nb". -/
theorem C7_trailing_newline_witness :
    bytesOf "a\nb" ≠ [] ∧ (bytesOf "a\nb").getLast? ≠ some 10 ∧
      processInput ⟨bytesOf "a\nb" ++ [10], GoError.EOF⟩ (bytesOf "f") State.start =
        processInput ⟨bytesOf "a\nb", GoError.EOF⟩ (bytesOf "f") State.start :=
  ⟨by decide, by decide,
    (C7_trailing_newline (bytesOf "a\nb") (bytesOf "f") GoError.EOF State.start
      (by decide) (by decide)).2.1⟩

/-- C8: for the empty input and every label, processInput succeeds, all four
counts are 0, and it prints one report line: between one and four fields that
show 0, then the label and a newline; with no flag set the line is three
fields showing 0 and the label. -/
theorem C8_empty_input (label : List Nat) (st : State) :
    (processInput ⟨[], GoError.EOF⟩ label st).1 = none ∧
      countInput ⟨[], GoError.EOF⟩ = ⟨0, 0, 0, 0⟩ ∧
      (∃ k, 1 ≤ k ∧ k ≤ 4 ∧
        (processInput ⟨[], GoError.EOF⟩ label st).2.stdout =
          st.stdout ++ (List.replicate k (bytesOf "       0 ")).flatten ++ label ++ [10]) ∧
      (processInput ⟨[], GoError.EOF⟩ label
          { st with showLines := false, showWords := false, showBytes := false,
                    showChars := false }).2.stdout =
        st.stdout ++ bytesOf "       0        0        0 " ++ label ++ [10] := by
  have hs : scanErr ⟨[], GoError.EOF⟩ = none := by decide
  have hc : countInput ⟨[], GoError.EOF⟩ = ⟨0, 0, 0, 0⟩ := by decide
  have hf : List.leftpad 8 32 (decimal 0) ++ [32] = bytesOf "       0 " := by decide
  have h3 : (List.replicate 3 (bytesOf "       0 ")).flatten =
      bytesOf "       0        0        0 " := by decide
  have hrep : ∀ k : Nat, reportText (List.replicate k 0) label =
      (List.replicate k (bytesOf "       0 ")).flatten ++ label ++ [10] := by
    intro k
    unfold reportText
    rw [List.map_replicate, hf]
  have hout : ∀ st2 : State, (processInput ⟨[], GoError.EOF⟩ label st2).2.stdout =
      st2.stdout ++ reportText (shownCounts st2 ⟨0, 0, 0, 0⟩) label := by
    intro st2
    unfold processInput
    simp only [hs, hc]
    rw [printReport_stdout]
  have hk : ∃ k, 1 ≤ k ∧ k ≤ 4 ∧ shownCounts st ⟨0, 0, 0, 0⟩ = List.replicate k 0 := by
    unfold shownCounts selected
    cases st.showLines <;> cases st.showWords <;> cases st.showBytes <;>
      cases st.showChars <;>
      first
        | exact ⟨1, by decide, by decide, rfl⟩
        | exact ⟨2, by decide, by decide, rfl⟩
        | exact ⟨3, by decide, by decide, rfl⟩
        | exact ⟨4, by decide, by decide, rfl⟩
  refine ⟨(processInput_ok_iff _ label st).mpr hs, hc, ?_, ?_⟩
  · obtain ⟨k, k1, k4, hsel⟩ := hk
    refine ⟨k, k1, k4, ?_⟩
    rw [hout, hsel, hrep]
    simp
  · rw [hout]
    have hsel : shownCounts
        { st with showLines := false, showWords := false, showBytes := false,
                  showChars := false } ⟨0, 0, 0, 0⟩ = List.replicate 3 0 := rfl
    rw [hsel, hrep, h3]
    simp

/-- C9: for every label and every stream that fails with an error other than
end of stream, whatever data it delivers first, processInput returns an error
whose text is "error reading ", the label, ": " and the text of the cause, the
error wraps that cause, and the state is left as it was: nothing is written
to standard output.  The cause is the failure of the stream whenever the
scanner reads that far, that is when every record delivered is shorter than
the scanner's buffer; otherwise the scanner has stopped before with
`ErrTooLong`. -/
theorem C9_read_error (data label : List Nat) (e : GoError) (st : State)
    (he : e ≠ GoError.EOF) :
    (processInput ⟨data, e⟩ label st).2 = st ∧
      (processInput ⟨data, e⟩ label st).2.stdout = st.stdout ∧
      ∃ cause,
        (processInput ⟨data, e⟩ label st).1 =
          some (GoError.wrapf
            (bytesOf "error reading " ++ label ++ bytesOf ": " ++ cause.Error) cause) ∧
        cause = (if ∀ rec ∈ records data, rec.length < bufio.MaxScanTokenSize then e
                 else GoError.ErrTooLong) := by
  have hs := scanErr_eq ⟨data, e⟩
  simp only [he, if_false] at hs
  by_cases hfit : ∀ rec ∈ records data, rec.length < bufio.MaxScanTokenSize
  · rw [if_pos hfit] at hs ⊢
    unfold processInput
    rw [hs]
    exact ⟨rfl, rfl, e, rfl, rfl⟩
  · rw [if_neg hfit] at hs ⊢
    unfold processInput
    rw [hs]
    exact ⟨rfl, rfl, GoError.ErrTooLong, rfl, rfl⟩

/-- Instance of C9: a stream that delivers "one\ntw" and then fails. -/
theorem C9_read_error_witness :
    GoError.os (bytesOf "input/output error") ≠ GoError.EOF ∧
      (processInput ⟨bytesOf "one\ntw", GoError.os (bytesOf "input/output error")⟩
          (bytesOf "f") State.start).2.stdout = [] ∧
      (processInput ⟨bytesOf "one\ntw", GoError.os (bytesOf "input/output error")⟩
          (bytesOf "f") State.start).1 =
        some (GoError.wrapf (bytesOf "error reading f: input/output error")
          (GoError.os (bytesOf "input/output error"))) :=
  ⟨by decide,
    (C9_read_error (bytesOf "one\ntw") (bytesOf "f") (GoError.os (bytesOf "input/output error"))
      State.start (by decide)).2.1,
    by decide⟩

/-- C10: for every non-empty list of file arguments, whatever files cannot be
opened or read, the standard output of the root command is what was there
before followed by the reports, in argument order, of the files that precede
the first failing file, and nothing for that file or any later one; the
command returns an error, and the process exits with code 1, exactly when
some file argument fails (else the exit code is 0).  (With no argument the
command reports on standard input instead.)  With two files of which the
first cannot be opened nothing is printed and the exit code is 1. -/
theorem C10_fail_fast (env : Env) (args : List (List Nat)) (st : State)
    (hargs : args ≠ []) :
    (rootCmd.RunE env args st).2.stdout =
        st.stdout ++
          ((args.takeWhile (fun f => !fileFails env st f)).map (fileReport env st)).flatten ∧
      (Execute env args st).2.stdout = (rootCmd.RunE env args st).2.stdout ∧
      (rootCmd.RunE env args st).1.isSome = args.any (fileFails env st) ∧
      (Execute env args st).1 = (if args.any (fileFails env st) then 1 else 0) ∧
      rootCmd.RunE env [] st = processInput env.stdin (bytesOf "stdin") st ∧
      Execute
          { stdin := ⟨[], GoError.EOF⟩
            openFile := fun name =>
              if name = bytesOf "b" then Except.ok ⟨bytesOf "hello world\n", GoError.EOF⟩
              else Except.error (GoError.os (bytesOf "open a: no such file or directory")) }
          [bytesOf "a", bytesOf "b"] State.start =
        (1, { State.start with
              stderr := bytesOf "failed to open a: open a: no such file or directory\n" }) := by
  have hlen : ¬ args.length = 0 := by
    intro h; exact hargs (List.length_eq_zero.mp h)
  obtain ⟨h1, h2⟩ := runFiles_spec env st args [] st (fun _ => rfl)
  have hout : (rootCmd.RunE env args st).2.stdout =
      st.stdout ++
        ((args.takeWhile (fun f => !fileFails env st f)).map (fileReport env st)).flatten := by
    unfold rootCmd.RunE
    rw [if_neg hlen]
    simp only
    rw [runDeferred_stdout, h1]
  have herr : (rootCmd.RunE env args st).1.isSome = args.any (fileFails env st) := by
    unfold rootCmd.RunE
    rw [if_neg hlen]
    exact h2
  refine ⟨hout, ?_, herr, ?_, rfl, by decide⟩
  · unfold Execute
    cases hr : rootCmd.RunE env args st with
    | mk res st1 =>
      cases res <;> rfl
  · unfold Execute
    cases hr : rootCmd.RunE env args st with
    | mk res st1 =>
      rw [hr] at herr
      cases res with
      | none =>
        simp only [Option.isSome_none] at herr
        simp [← herr]
      | some err =>
        simp only [Option.isSome_some] at herr
        simp [← herr]

/-- Instance of C10: two files, the second of which cannot be opened. -/
theorem C10_fail_fast_witness :
    [bytesOf "b", bytesOf "a"] ≠ [] ∧
      (rootCmd.RunE
          { stdin := ⟨[], GoError.EOF⟩
            openFile := fun name =>
              if name = bytesOf "b" then Except.ok ⟨bytesOf "hello world\n", GoError.EOF⟩
              else Except.error (GoError.os (bytesOf "open a: no such file or directory")) }
          [bytesOf "b", bytesOf "a"] State.start).2.stdout =
        bytesOf "       1        2       12 b\n" :=
  ⟨by decide,
    (C10_fail_fast
      { stdin := ⟨[], GoError.EOF⟩
        openFile := fun name =>
          if name = bytesOf "b" then Except.ok ⟨bytesOf "hello world\n", GoError.EOF⟩
          else Except.error (GoError.os (bytesOf "open a: no such file or directory")) }
      [bytesOf "b", bytesOf "a"] State.start (by decide)).1⟩

/-- C11, as stated, fails: on a stream that delivers 65536 bytes "a" and then
ends regularly, processInput returns the error "token too long" of the
scanner and prints nothing. -/
theorem C11_long_record_counterexample :
    (processInput ⟨List.replicate 65536 97, GoError.EOF⟩ (bytesOf "f") State.start).1 =
        some (GoError.wrapf
          (bytesOf "error reading f: bufio.Scanner: token too long") GoError.ErrTooLong) ∧
      (processInput ⟨List.replicate 65536 97, GoError.EOF⟩ (bytesOf "f") State.start).2.stdout
        = [] :=
  long_record_fails 65536 (bytesOf "f") State.start (by decide)

/-- C11, amended: for every finite input in which every record is shorter
than 65536 bytes, delivered by a stream that ends regularly, and every label
and flag state, processInput returns success and writes one report to
standard output: fields without a newline, the label and one newline.  It
fails exactly when the stream fails or some record has 65536 bytes or more
(the scanner's buffer limit). -/
theorem C11_success (data label : List Nat) (st : State)
    (hfit : ∀ rec ∈ records data, rec.length < 65536) :
    (processInput ⟨data, GoError.EOF⟩ label st).1 = none ∧
      (∃ txt, (processInput ⟨data, GoError.EOF⟩ label st).2.stdout =
          st.stdout ++ txt ++ label ++ [10] ∧ 10 ∉ txt) ∧
      (10 ∉ label → (printedBy ⟨data, GoError.EOF⟩ label st).count 10 = 1) ∧
      (∀ r : Reader, (processInput r label st).1 = none ↔
        (r.err = GoError.EOF ∧ ∀ rec ∈ records r.data, rec.length < 65536)) := by
  have hok : (processInput ⟨data, GoError.EOF⟩ label st).1 = none :=
    (processInput_ok_fit _ label st).mpr ⟨rfl, hfit⟩
  have hs := (processInput_ok_iff _ label st).mp hok
  obtain ⟨txt, htxt, hno⟩ :=
    reportText_fields (shownCounts st (countInput ⟨data, GoError.EOF⟩)) label
  have hp : printedBy ⟨data, GoError.EOF⟩ label st = txt ++ label ++ [10] := by
    rw [printedBy_eq, if_pos hs, htxt]
  refine ⟨hok, ⟨txt, ?_, hno⟩, ?_, fun r => processInput_ok_fit r label st⟩
  · unfold processInput
    rw [hs]
    simp only
    rw [printReport_stdout, htxt]
    simp
  · intro hl
    rw [hp]
    simp [List.count_eq_zero_of_not_mem hno, List.count_eq_zero_of_not_mem hl]

/-- Instance of C11 at the input "hello world\n". -/
theorem C11_success_witness :
    (∀ rec ∈ records (bytesOf "hello world\n"), rec.length < 65536) ∧
      (processInput ⟨bytesOf "hello world\n", GoError.EOF⟩ (bytesOf "f") State.start).1 = none :=
  ⟨by decide, (C11_success (bytesOf "hello world\n") (bytesOf "f") State.start (by decide)).1⟩

/-- C12, as stated, fails: with no flag set, processInput on the empty input
succeeds and leaves showLines, showWords and showBytes set. -/
theorem C12_flags_counterexample :
    flagsOf State.start = (false, false, false, false) ∧
      (processInput ⟨[], GoError.EOF⟩ (bytesOf "f") State.start).1 = none ∧
      flagsOf (processInput ⟨[], GoError.EOF⟩ (bytesOf "f") State.start).2 =
        (true, true, true, false) ∧
      flagsOf (processInput ⟨[], GoError.EOF⟩ (bytesOf "f") State.start).2 ≠
        flagsOf State.start := by
  decide

/-- C12, amended: for every input, label and initial values of the four
flags, the flags hold the same values after processInput as before it when at
least one of them is set or the call fails; when all four are unset and the
call succeeds, showLines, showWords and showBytes are true afterwards and
showChars is still false.  The verbose flag is never changed. -/
theorem C12_flags_after (r : Reader) (label : List Nat) (st : State) :
    flagsOf (processInput r label st).2 =
        (if (processInput r label st).1 = none ∧ flagsOf st = (false, false, false, false)
         then (true, true, true, false) else flagsOf st) ∧
      (processInput r label st).2.verbose = st.verbose :=
  ⟨processInput_flags r label st, processInput_verbose r label st⟩

/-- C13: for every initial flag state, input and label, a second call of
processInput on the same input and label returns the same result as the first
and prints the same report, so standard output ends with that report twice;
the flags after the second call are those after the first. -/
theorem C13_repeat_call (r : Reader) (label : List Nat) (st : State) :
    (processInput r label (processInput r label st).2).1 = (processInput r label st).1 ∧
      printedBy r label (processInput r label st).2 = printedBy r label st ∧
      (processInput r label (processInput r label st).2).2.stdout =
        st.stdout ++ printedBy r label st ++ printedBy r label st ∧
      flagsOf (processInput r label (processInput r label st).2).2 =
        flagsOf (processInput r label st).2 := by
  have hp : printedBy r label (processInput r label st).2 = printedBy r label st :=
    printedBy_shown r label st _ (processInput_shown r label st)
  refine ⟨processInput_fst _ _ _ _, hp, ?_, ?_⟩
  · rw [processInput_stdout, processInput_stdout, hp]
  · have h1 := processInput_flags r label st
    have h2 := processInput_flags r label (processInput r label st).2
    rw [processInput_fst r label (processInput r label st).2 st] at h2
    rw [h2]
    by_cases hok : (processInput r label st).1 = none
    · by_cases hf : flagsOf st = (false, false, false, false)
      · rw [if_pos ⟨hok, hf⟩] at h1
        rw [h1]
        simp
      · have hn : ¬ ((processInput r label st).1 = none ∧
            flagsOf st = (false, false, false, false)) := fun h => hf h.2
        rw [if_neg hn] at h1
        rw [h1]
        simp [hf]
    · simp [hok]

/-- C14: for every input on which processInput succeeds, the sum over the
scanned lines of len(splitWords(line)), which is the words count, equals
len(splitWords(input)) for the entire input as one string. -/
theorem C14_words_by_line (r : Reader) (label : List Nat) (st : State)
    (h : (processInput r label st).1 = none) :
    ((bufio.Scanner.run bufio.ScanLines r).1.map (fun line => (splitWords line).length)).sum =
        (splitWords r.data).length ∧
      (countInput r).words = (splitWords r.data).length := by
  have hs := (processInput_ok_iff r label st).mp h
  obtain ⟨hfit, _, hrun⟩ := scanErr_none r hs
  have hw : (countInput r).words = (splitWords r.data).length := by
    rw [words_eq_runs r hs, splitWords_length_all r.data hfit]
  refine ⟨?_, hw⟩
  rw [← hw, countInput_of_ok r hs, hrun]
  simp [List.map_map, Function.comp_def]

/-- Instance of C14 at an input with a carriage return before the newline. -/
theorem C14_words_by_line_witness :
    (processInput ⟨bytesOf "one two\r\nthree", GoError.EOF⟩ (bytesOf "f") State.start).1
        = none ∧
      (countInput ⟨bytesOf "one two\r\nthree", GoError.EOF⟩).words =
        (splitWords (bytesOf "one two\r\nthree")).length :=
  ⟨by decide,
    (C14_words_by_line ⟨bytesOf "one two\r\nthree", GoError.EOF⟩ (bytesOf "f") State.start
      (by decide)).2⟩

/-- C15: for every input on which processInput succeeds, the bytes count is
len(input), plus 1 if the input is not empty and does not end with a newline,
minus the number of records whose last byte is a carriage return; that number
is the number of occurrences of "\r\n" plus one if the input ends with a
carriage return.  On "a\r\n" the count is 2 for 3 bytes of input. -/
theorem C15_bytes_with_cr (r : Reader) (label : List Nat) (st : State)
    (h : (processInput r label st).1 = none) :
    (countInput r).bytes =
        r.data.length + (if r.data ≠ [] ∧ r.data.getLast? ≠ some 10 then 1 else 0) -
          (records r.data).countP (fun rec => rec.getLast? == some 13) ∧
      (countInput r).bytes + (records r.data).countP (fun rec => rec.getLast? == some 13) =
        r.data.length + (if r.data ≠ [] ∧ r.data.getLast? ≠ some 10 then 1 else 0) ∧
      (records r.data).countP (fun rec => rec.getLast? == some 13) =
        countCRLF r.data + (if r.data.getLast? = some 13 then 1 else 0) ∧
      (countInput ⟨[97, 13, 10], GoError.EOF⟩).bytes = 2 := by
  have hs := (processInput_ok_iff r label st).mp h
  have hb : (countInput r).bytes =
      ((records r.data).map (fun t => (bufio.dropCR t).length + 1)).sum := by
    rw [countInput_of_ok r hs]
  have h1 := records_sum_dropCR (records r.data)
  rw [records_sum_length] at h1
  unfold fragment at h1
  refine ⟨by omega, by omega, records_count_cr r.data, by decide⟩

/-- Instance of C15 at the input "a\r\nb\r". -/
theorem C15_bytes_with_cr_witness :
    (processInput ⟨[97, 13, 10, 98, 13], GoError.EOF⟩ (bytesOf "f") State.start).1 = none ∧
      (countInput ⟨[97, 13, 10, 98, 13], GoError.EOF⟩).bytes = 5 + 1 - 2 :=
  ⟨by decide,
    (C15_bytes_with_cr ⟨[97, 13, 10, 98, 13], GoError.EOF⟩ (bytesOf "f") State.start
      (by decide)).1⟩

/-- C16, as stated, fails: a count of 100000000 takes nine characters, so the
report of that single count under the label "f" is 12 bytes long where
9 * 1 + 1 + 1 is 11. -/
theorem C16_width_counterexample :
    shownCounts { State.start with showLines := true } ⟨100000000, 0, 0, 0⟩ = [100000000] ∧
      (fmt.pad8 100000000).length = 9 ∧
      (printReport ⟨100000000, 0, 0, 0⟩ (bytesOf "f")
          { State.start with showLines := true }).stdout.length = 12 ∧
      (printReport ⟨100000000, 0, 0, 0⟩ (bytesOf "f")
          { State.start with showLines := true }).stdout.length ≠
        9 * 1 + (bytesOf "f").length + 1 := by
  decide

/-- C16, amended: a count is printed right-justified in a field of 8
characters when it is below 100000000 and in full, with as many characters as
it has digits, otherwise.  So for every tuple of counts, label and selection
whose shown counts are all below 100000000, the printed report is exactly
9 * k + len(label) + 1 bytes long, k being the number of categories shown; in
general its length is the sum over the shown counts of (max 8 digits + 1),
plus len(label) + 1. -/
theorem C16_field_width (c : Counts) (label : List Nat) (st : State)
    (h : ∀ n ∈ shownCounts st c, n < 10 ^ 8) :
    (printReport c label st).stdout.length =
        st.stdout.length + (9 * (shownCounts st c).length + label.length + 1) ∧
      (∀ n ∈ shownCounts st c,
        (fmt.pad8 n).length = 8 ∧
          fmt.pad8 n = List.replicate (8 - (decimal n).length) 32 ++ decimal n) ∧
      (∀ (c2 : Counts) (st2 : State),
        (printReport c2 label st2).stdout.length =
          st2.stdout.length +
            (((shownCounts st2 c2).map (fun n => max 8 (decimal n).length + 1)).sum +
              label.length + 1)) := by
  refine ⟨?_, ?_, ?_⟩
  · rw [printReport_stdout, List.length_append, reportText_length_small _ _ h]
  · intro n hn
    have h1 := decimal_length_le n (h n hn)
    have h2 : fmt.pad8 n = List.replicate (8 - (decimal n).length) 32 ++ decimal n := by
      rw [pad8_leftpad]; rfl
    refine ⟨?_, h2⟩
    rw [h2, List.length_append, List.length_replicate]
    omega
  · intro c2 st2
    rw [printReport_stdout, List.length_append, reportText_length]

/-- Instance of C16 at the counts of "hello world\n" with no flag set. -/
theorem C16_field_width_witness :
    (∀ n ∈ shownCounts State.start ⟨1, 2, 11, 12⟩, n < 10 ^ 8) ∧
      (printReport ⟨1, 2, 11, 12⟩ (bytesOf "f") State.start).stdout.length =
        State.start.stdout.length +
          (9 * (shownCounts State.start ⟨1, 2, 11, 12⟩).length + (bytesOf "f").length + 1) :=
  ⟨by decide, (C16_field_width ⟨1, 2, 11, 12⟩ (bytesOf "f") State.start (by decide)).1⟩

/-- C17, as stated, fails: with two readable files the log of the run is
open a, open b, close b, close a, so both files are open after the second
open and the first is not closed before the second is opened. -/
theorem C17_close_counterexample :
    (rootCmd.RunE
        { stdin := ⟨[], GoError.EOF⟩
          openFile := fun _ => Except.ok ⟨bytesOf "hello world\n", GoError.EOF⟩ }
        [bytesOf "a", bytesOf "b"] State.start).2.fileLog =
      [FileEvent.opened (bytesOf "a"), FileEvent.opened (bytesOf "b"),
        FileEvent.closed (bytesOf "b"), FileEvent.closed (bytesOf "a")] ∧
      openCount
        ((rootCmd.RunE
          { stdin := ⟨[], GoError.EOF⟩
            openFile := fun _ => Except.ok ⟨bytesOf "hello world\n", GoError.EOF⟩ }
          [bytesOf "a", bytesOf "b"] State.start).2.fileLog.take 2) = 2 := by
  decide

/-- C17, amended: when the root command processes a list of files, every
file that was opened is closed by the time the command returns, on success
and on error paths alike; the closes are deferred to the return and run
after the last open, in reverse order of opening, so a file stays open while
the later files are processed. -/
theorem C17_closed_at_return (env : Env) (args : List (List Nat)) (st : State) :
    (rootCmd.RunE env args st).2.fileLog =
        st.fileLog ++ (openedFiles env st args).map FileEvent.opened ++
          (openedFiles env st args).reverse.map FileEvent.closed ∧
      (∀ file : List Nat,
        ((openedFiles env st args).map FileEvent.opened ++
            (openedFiles env st args).reverse.map FileEvent.closed).count
              (FileEvent.closed file) =
          ((openedFiles env st args).map FileEvent.opened ++
            (openedFiles env st args).reverse.map FileEvent.closed).count
              (FileEvent.opened file)) ∧
      (∀ n, n ≤ (openedFiles env st args).length →
        openCount (((openedFiles env st args).map FileEvent.opened ++
          (openedFiles env st args).reverse.map FileEvent.closed).take n) = n) ∧
      openCount ((openedFiles env st args).map FileEvent.opened ++
        (openedFiles env st args).reverse.map FileEvent.closed) = 0 := by
  have hlog : (rootCmd.RunE env args st).2.fileLog =
      st.fileLog ++ (openedFiles env st args).map FileEvent.opened ++
        (openedFiles env st args).reverse.map FileEvent.closed := by
    unfold rootCmd.RunE
    by_cases hlen : args.length = 0
    · have hnil : args = [] := List.length_eq_zero.mp hlen
      subst hnil
      simp [openedFiles, processInput_fileLog]
    · rw [if_neg hlen]
      obtain ⟨h1, h2⟩ := runFiles_fileLog env st args [] st
      simp only
      rw [runDeferred_fileLog, h1, h2]
      simp
  refine ⟨hlog, ?_, ?_, ?_⟩
  · intro file
    obtain ⟨c1, c2⟩ := count_events (openedFiles env st args)
      (openedFiles env st args).reverse file
    rw [c1, c2, List.count_reverse]
  · intro n hn
    have htake : ((openedFiles env st args).map FileEvent.opened ++
        (openedFiles env st args).reverse.map FileEvent.closed).take n =
        ((openedFiles env st args).take n).map FileEvent.opened ++
          ([] : List (List Nat)).map FileEvent.closed := by
      rw [List.take_append_of_le_length (by simpa using hn)]
      simp [List.map_take]
    rw [htake, openCount_events]
    simp [hn]
  · rw [openCount_events]
    simp
